import Mathlib

/-!
Verification development for the waverless dispatcher examples.

The repository ships only demonstration clients; the dispatcher core (task
store, worker registry, dispatch queue, assignment engine, coordinator) is
specified in `spec.md` but not present in the sources.  The definitions below
marked `Modelled from the spec:` embed that core faithfully from the spec's
words.  The worker-side handler `handler_with_error_handling` is embedded
directly from `src/examples/worker_example.py`.
-/

namespace Waverless

/-- A shallow embedding of the Python values that flow through the system:
`None`, booleans, integers, strings, lists and dicts.  Task inputs and
outputs are such opaque documents, passed through unmodified. -/
inductive PyVal where
  | none : PyVal
  | bool (b : Bool) : PyVal
  | int (n : Int) : PyVal
  | str (s : String) : PyVal
  | list (xs : List PyVal) : PyVal
  | dict (entries : List (String × PyVal)) : PyVal

/-- Python truthiness of a value, as used by `if job_input.get("should_fail"):`
in `worker_example.py`. -/
def truthy : PyVal → Bool
  | .none => false
  | .bool b => b
  | .int n => n != 0
  | .str s => s != ""
  | .list xs => !xs.isEmpty
  | .dict xs => !xs.isEmpty

/-- First-match lookup in a dict's entry list with a default, the semantics of
Python's `dict.get(key, default)` (keys are unique in a real Python dict, so
first-match agrees with it). -/
def getEntry : List (String × PyVal) → String → PyVal → PyVal
  | [], _, dflt => dflt
  | (k, v) :: r, key, dflt => if k = key then v else getEntry r key dflt

/-- Python's `x.get(key, default)`: succeeds on a dict, raises
`AttributeError` (modelled as `Except.error`) on any non-dict value. -/
def dictGet (v : PyVal) (key : String) (dflt : PyVal) : Except String PyVal :=
  match v with
  | .dict entries => .ok (getEntry entries key dflt)
  | _ => .error "AttributeError"

/-- Embedded from `src/examples/worker_example.py`, lines 50-68: the handler
wraps its body in `try/except` and returns `{"error": str(e)}` on any
exception; on the happy path it reads `job.get("input", {})`, raises
`Exception("Simulated failure")` when `job_input.get("should_fail")` is
truthy, and otherwise returns `{"result": "success", "input": job_input}`.
The `time.sleep(1)` has no effect on the returned value and is omitted. -/
def handler_with_error_handling (job : PyVal) : PyVal :=
  match dictGet job "input" (.dict []) with
  | .error e => .dict [("error", .str e)]
  | .ok job_input =>
    match dictGet job_input "should_fail" .none with
    | .error e => .dict [("error", .str e)]
    | .ok sf =>
      if truthy sf then .dict [("error", .str "Simulated failure")]
      else .dict [("result", .str "success"), ("input", job_input)]

/-! ## The dispatcher core, modelled from the spec. -/

/-- Task identifiers are allocated from a counter at creation. -/
abbrev TaskId := Nat

/-- Worker identifiers are opaque strings supplied by the worker process. -/
abbrev WorkerId := String

/-- Endpoints are logical routing keys (opaque strings). -/
abbrev Endpoint := String

/-- Modelled from the spec: task `status` is one of `PENDING`, `IN_PROGRESS`,
`COMPLETED`, `FAILED`, `CANCELLED` (spec section 3 and section 4.1). -/
inductive Status where
  | pending | inProgress | completed | failed | cancelled
deriving DecidableEq, Repr

/-- `COMPLETED`, `FAILED` and `CANCELLED` are the terminal statuses. -/
def isTerminal : Status → Bool
  | .completed => true
  | .failed => true
  | .cancelled => true
  | _ => false

/-- A worker-reported outcome: success with an output document, or failure
with an error message. -/
inductive Outcome where
  | success (output : PyVal)
  | failure (error : String)

/-- Modelled from the spec: the Task record of spec section 3, including the
retry counter of the eviction/requeue path (spec section 4.1). -/
structure Task where
  endpoint : Endpoint
  input : PyVal
  output : Option PyVal
  status : Status
  error : Option String
  createdAt : Option Nat
  startedAt : Option Nat
  completedAt : Option Nat
  assignedWorker : Option WorkerId
  retries : Nat

/-- Modelled from the spec: the Worker record of spec section 3. -/
structure Worker where
  endpoint : Endpoint
  concurrency : Nat
  currentJobs : Nat
  jobsInProgress : List TaskId
  lastHeartbeat : Nat

/-- Modelled from the spec: the dispatcher state — task store, worker
registry, per-endpoint dispatch queues of task ids, the id allocator and a
discrete clock. -/
structure DState where
  tasks : TaskId → Option Task
  workers : List (WorkerId × Worker)
  queue : Endpoint → List TaskId
  nextId : TaskId
  now : Nat

/-- Point update of the task store. -/
def updT (f : TaskId → Option Task) (id : TaskId) (t : Task) : TaskId → Option Task :=
  fun j => if j = id then some t else f j

/-- Registry lookup (first entry with the given key). -/
def getW : List (WorkerId × Worker) → WorkerId → Option Worker
  | [], _ => Option.none
  | (k, w) :: r, wid => if k = wid then some w else getW r wid

/-- Registry upsert: replace the first entry with the given key, or append a
fresh entry when the key is absent. -/
def setW : List (WorkerId × Worker) → WorkerId → Worker → List (WorkerId × Worker)
  | [], wid, w => [(wid, w)]
  | (k, x) :: r, wid, w => if k = wid then (wid, w) :: r else (k, x) :: setW r wid w

/-- Registry removal of every entry with the given key. -/
def removeW : List (WorkerId × Worker) → WorkerId → List (WorkerId × Worker)
  | [], _ => []
  | (k, x) :: r, wid => if k = wid then removeW r wid else (k, x) :: removeW r wid

/-- Point update of the queue table. -/
def setQ (q : Endpoint → List TaskId) (e : Endpoint) (l : List TaskId) : Endpoint → List TaskId :=
  fun x => if x = e then l else q x

/-- The empty dispatcher state. -/
def init : DState :=
  { tasks := fun _ => Option.none, workers := [], queue := fun _ => [],
    nextId := 0, now := 0 }

/-- Modelled from the spec: `create(endpoint, input) -> Task` of section 4.1 —
a fresh id, status `PENDING`, `created_at` now, everything else unset. -/
def create (s : DState) (e : Endpoint) (inp : PyVal) : TaskId × DState :=
  let id := s.nextId
  let t : Task :=
    { endpoint := e, input := inp, output := Option.none, status := .pending,
      error := Option.none, createdAt := some s.now, startedAt := Option.none,
      completedAt := Option.none, assignedWorker := Option.none, retries := 0 }
  (id, { s with tasks := updT s.tasks id t, nextId := id + 1 })

/-- Modelled from the spec: `enqueue(endpoint, taskId)` appends to the
endpoint's queue (spec section 4.3). -/
def enqueue (s : DState) (e : Endpoint) (id : TaskId) : DState :=
  { s with queue := setQ s.queue e (s.queue e ++ [id]) }

/-- Modelled from the spec: a submission creates a Task and enqueues it for
its endpoint (spec section 2 control flow). -/
def submit (s : DState) (e : Endpoint) (inp : PyVal) : TaskId × DState :=
  let (id, s1) := create s e inp
  (id, enqueue s1 e id)

/-- Modelled from the spec: `registerOrHeartbeat(id, endpoint, concurrency)`
upserts the worker and refreshes `last_heartbeat`; the declared concurrency is
stored as given (it may be adjusted dynamically by the worker, spec sections
4.2 and 9). -/
def registerOrHeartbeat (s : DState) (wid : WorkerId) (e : Endpoint) (conc : Nat) : DState :=
  match getW s.workers wid with
  | some w =>
    let w' := { w with endpoint := e, concurrency := conc, lastHeartbeat := s.now }
    { s with workers := setW s.workers wid w' }
  | Option.none =>
    let w' : Worker :=
      { endpoint := e, concurrency := conc, currentJobs := 0,
        jobsInProgress := [], lastHeartbeat := s.now }
    { s with workers := setW s.workers wid w' }

/-- The worker record after one of its slots is released. -/
def releasedWorker (w : Worker) (id : TaskId) : Worker :=
  { w with currentJobs := w.currentJobs - 1,
           jobsInProgress := w.jobsInProgress.erase id }

/-- Modelled from the spec: `releaseSlot(workerId, taskId)` decrements
`current_jobs` and removes the task from `jobs_in_progress` (spec section
4.2); a release for a task the worker does not hold is a no-op. -/
def releaseSlot (s : DState) (wid : WorkerId) (id : TaskId) : DState :=
  match getW s.workers wid with
  | Option.none => s
  | some w =>
    if id ∈ w.jobsInProgress then
      { s with workers := setW s.workers wid (releasedWorker w id) }
    else s

/-- Modelled from the spec: the pop-discard-retry loop of `takeNext` (spec
section 4.3, steps 2-3): scan the queue from the head, discarding entries
that are no longer `PENDING`, and return the first still-`PENDING` task
together with the remaining queue. -/
def scanQueue (s : DState) : List TaskId → Option (TaskId × Task) × List TaskId
  | [] => (Option.none, [])
  | id :: rest =>
    match s.tasks id with
    | some t => if t.status = .pending then (some (id, t), rest) else scanQueue s rest
    | Option.none => scanQueue s rest

/-- Modelled from the spec: `takeNext(endpoint, workerId, availableSlots)`
(spec section 4.3).  Capacity is re-read from the registry on every call
(spec section 9), so the advisory `availableSlots` argument is not trusted:
if `concurrency - current_jobs <= 0` return Empty without dequeuing; pop the
queue head, discard non-`PENDING` entries; on success transition the task to
`IN_PROGRESS`, set `assigned_worker` and `started_at`, increment the worker's
`current_jobs` and add the id to `jobs_in_progress`. -/
def takeNext (s : DState) (e : Endpoint) (wid : WorkerId) (_availableSlots : Nat) :
    Option (TaskId × Task) × DState :=
  match getW s.workers wid with
  | Option.none => (Option.none, s)
  | some w =>
    if w.concurrency ≤ w.currentJobs then (Option.none, s)
    else
      match scanQueue s (s.queue e) with
      | (Option.none, _) => (Option.none, { s with queue := setQ s.queue e [] })
      | (some (id, t), rest) =>
        let t' := { t with status := .inProgress, assignedWorker := some wid,
                           startedAt := some s.now }
        let w' := { w with currentJobs := w.currentJobs + 1,
                           jobsInProgress := id :: w.jobsInProgress }
        (some (id, t'),
         { s with tasks := updT s.tasks id t', workers := setW s.workers wid w',
                  queue := setQ s.queue e rest })

/-- The task record after cancellation: status `CANCELLED`,
`assigned_worker` cleared, `completed_at` set. -/
def cancelledTask (t : Task) (now : Nat) : Task :=
  { t with status := .cancelled, assignedWorker := Option.none,
           completedAt := some now }

/-- Modelled from the spec: `cancel(id)` (spec sections 4.1 and 5) — unknown
id is NotFound; a `PENDING` task is marked `CANCELLED` (it stays in the queue
and is lazily discarded by `takeNext`); an `IN_PROGRESS` task is marked
`CANCELLED` immediately for the submitter's view, `assigned_worker` cleared
and the holder's slot released; cancelling an already-terminal task is a
no-op returning the existing status. -/
def cancel (s : DState) (id : TaskId) : Option Status × DState :=
  match s.tasks id with
  | Option.none => (Option.none, s)
  | some t =>
    match t.status with
    | .pending =>
      (some .cancelled, { s with tasks := updT s.tasks id (cancelledTask t s.now) })
    | .inProgress =>
      let s1 := { s with tasks := updT s.tasks id (cancelledTask t s.now) }
      match t.assignedWorker with
      | some wid => (some .cancelled, releaseSlot s1 wid id)
      | Option.none => (some .cancelled, s1)
    | st => (some st, s)

/-- Result classification of `applyResult` (spec section 7 taxonomy). -/
inductive ApplyRes where
  | ok | conflict | notFound
deriving DecidableEq, Repr

/-- Modelled from the spec: the terminal transition a worker report applies —
`COMPLETED` with the output on success, `FAILED` with the error on failure;
`assigned_worker` cleared, `completed_at` set (spec section 4.1). -/
def finishTask (t : Task) (oc : Outcome) (now : Nat) : Task :=
  match oc with
  | .success out =>
    { t with status := .completed, output := some out,
             completedAt := some now, assignedWorker := Option.none }
  | .failure err =>
    { t with status := .failed, error := some err,
             completedAt := some now, assignedWorker := Option.none }

/-- Modelled from the spec: `applyResult(id, workerId, outcome)` /
`reportResult` (spec sections 4.1 and 4.4) — `Conflict` (report discarded,
state unchanged) unless the task is currently `IN_PROGRESS` and held by
`workerId`; otherwise apply the terminal transition and release the worker's
slot. -/
def applyResult (s : DState) (id : TaskId) (wid : WorkerId) (oc : Outcome) :
    ApplyRes × DState :=
  match s.tasks id with
  | Option.none => (.notFound, s)
  | some t =>
    if t.status = .inProgress ∧ t.assignedWorker = some wid then
      (.ok, releaseSlot { s with tasks := updT s.tasks id (finishTask t oc s.now) } wid id)
    else (.conflict, s)

/-- The task record after a requeue: back to `PENDING`, `assigned_worker`
cleared, retry counter incremented (spec section 4.1). -/
def requeuedTask (t : Task) : Task :=
  { t with status := .pending, assignedWorker := Option.none,
           retries := t.retries + 1 }

/-- The task record after the retry bound is exhausted: `FAILED` with the
synthetic "worker unavailable" error (spec section 7). -/
def failedTask (t : Task) (now : Nat) : Task :=
  { t with status := .failed, assignedWorker := Option.none,
           error := some "worker unavailable", completedAt := some now }

/-- Modelled from the spec: the requeue-or-fail step applied to one task held
by an evicted worker (spec section 4.1, `IN_PROGRESS → PENDING` edge): if the
retry counter is still below the bound, return the task to `PENDING` and
requeue it at the front of its endpoint's queue; otherwise transition it to
`FAILED` with the synthetic error (spec section 7). -/
def requeueTask (s : DState) (maxRetries : Nat) (id : TaskId) : DState :=
  match s.tasks id with
  | Option.none => s
  | some t =>
    if t.status = .inProgress then
      if t.retries < maxRetries then
        { s with tasks := updT s.tasks id (requeuedTask t),
                 queue := setQ s.queue t.endpoint (id :: s.queue t.endpoint) }
      else
        { s with tasks := updT s.tasks id (failedTask t s.now) }
    else s

/-- Requeue every task of a list in order. -/
def requeueAll (s : DState) (maxRetries : Nat) : List TaskId → DState
  | [] => s
  | id :: rest => requeueAll (requeueTask s maxRetries id) maxRetries rest

/-- Modelled from the spec: eviction of one worker — remove it from the
registry and requeue (or fail) each task it held (spec section 4.2).  This is
the per-worker unit that `evictStale` applies to every stale worker. -/
def evictWorker (s : DState) (maxRetries : Nat) (wid : WorkerId) : DState :=
  match getW s.workers wid with
  | Option.none => s
  | some w => requeueAll { s with workers := removeW s.workers wid } maxRetries w.jobsInProgress

/-- A worker is stale when its `last_heartbeat` is older than the timeout. -/
def staleP (now timeout : Nat) (w : Worker) : Bool :=
  w.lastHeartbeat + timeout < now

/-- The ids of the workers whose heartbeat is stale at the given time. -/
def staleIds (s : DState) (timeout : Nat) : List WorkerId :=
  (s.workers.filter (fun p => staleP s.now timeout p.2)).map Prod.fst

/-- Modelled from the spec: `evictStale(now, timeout)` scans the registry for
workers whose `last_heartbeat` is older than `timeout`, removes them and
requeues their held task ids (spec section 4.2). -/
def evictStale (s : DState) (timeout maxRetries : Nat) : DState :=
  (staleIds s timeout).foldl (fun acc wid => evictWorker acc maxRetries wid) s

/-- The operations through which the dispatcher state evolves (submissions,
heartbeats, pulls, cancellations, reports, the eviction sweep, and the
passage of time). -/
inductive Op where
  | submit (e : Endpoint) (inp : PyVal)
  | heartbeat (wid : WorkerId) (e : Endpoint) (conc : Nat)
  | take (e : Endpoint) (wid : WorkerId) (slots : Nat)
  | cancelOp (id : TaskId)
  | report (id : TaskId) (wid : WorkerId) (oc : Outcome)
  | evict (timeout maxRetries : Nat)
  | tick (d : Nat)

/-- One step of the dispatcher: apply an operation, discarding its return
value. -/
def step (op : Op) (s : DState) : DState :=
  match op with
  | .submit e inp => (submit s e inp).2
  | .heartbeat wid e conc => registerOrHeartbeat s wid e conc
  | .take e wid n => (takeNext s e wid n).2
  | .cancelOp id => (cancel s id).2
  | .report id wid oc => (applyResult s id wid oc).2
  | .evict t mr => evictStale s t mr
  | .tick d => { s with now := s.now + d }

/-- Run a list of operations from the empty state. -/
def run (ops : List Op) : DState := ops.foldl (fun s op => step op s) init

/-- Run a list of operations from a given state. -/
def runFrom (s : DState) (ops : List Op) : DState := ops.foldl (fun a op => step op a) s

/-- The reachable dispatcher states. -/
inductive Reachable : DState → Prop where
  | init : Reachable init
  | step (op : Op) {s : DState} : Reachable s → Reachable (step op s)

/-- Modelled from the spec: the blocking wait of a synchronous submission
(spec section 4.4).  The environment's operations interleave while the caller
blocks; the wait returns the task's current snapshot as soon as it is
terminal, or once the configured deadline has passed (flagged as a timeout
outcome, distinct from task failure). -/
def waitLoop (id : TaskId) (deadline : Nat) : List Op → DState → (Option Task × Bool) × DState
  | env, s =>
    match s.tasks id with
    | Option.none => ((Option.none, false), s)
    | some t =>
      if isTerminal t.status then ((some t, false), s)
      else if deadline ≤ s.now then ((some t, true), s)
      else
        match env with
        | [] => ((some t, true), s)
        | op :: rest => waitLoop id deadline rest (step op s)

/-- Modelled from the spec: `runSync` — create the task, enqueue it, then
block until it reaches a terminal state or the timeout elapses, returning the
task's current snapshot either way (spec section 4.4). -/
def runSync (s : DState) (e : Endpoint) (inp : PyVal) (timeout : Nat) (env : List Op) :
    (TaskId × Option Task × Bool) × DState :=
  let id := (submit s e inp).1
  let s1 := (submit s e inp).2
  let r := waitLoop id (s1.now + timeout) env s1
  ((id, r.1.1, r.1.2), r.2)

/-- Total tick time contained in a list of operations. -/
def sumTicks : List Op → Nat
  | [] => 0
  | .tick d :: r => d + sumTicks r
  | _ :: r => sumTicks r

/-- A task id is pending in a state when its record exists with status
`PENDING`. -/
def IsPending (s : DState) (id : TaskId) : Prop :=
  ∃ t, s.tasks id = some t ∧ t.status = .pending

/-! ## Basic lemmas about the store, registry and queue updates. -/

theorem updT_same (f : TaskId → Option Task) (id : TaskId) (t : Task) :
    updT f id t id = some t := by
  simp [updT]

theorem updT_other (f : TaskId → Option Task) {j id : TaskId} (t : Task) (h : j ≠ id) :
    updT f id t j = f j := by
  simp [updT, h]

theorem getW_setW_same (l : List (WorkerId × Worker)) (wid : WorkerId) (w : Worker) :
    getW (setW l wid w) wid = some w := by
  induction l with
  | nil => simp [setW, getW]
  | cons p r ih =>
    by_cases h : p.1 = wid
    · simp [setW, getW, h]
    · simpa [setW, getW, h] using ih

theorem getW_setW_other (l : List (WorkerId × Worker)) {wid wid' : WorkerId} (w : Worker)
    (h : wid' ≠ wid) : getW (setW l wid w) wid' = getW l wid' := by
  induction l with
  | nil => simp [setW, getW, Ne.symm h]
  | cons p r ih =>
    obtain ⟨k, x⟩ := p
    by_cases hp : k = wid
    · subst hp
      simp [setW, getW, Ne.symm h]
    · by_cases hp' : k = wid'
      · subst hp'
        simp [setW, getW, hp]
      · simp [setW, getW, hp, hp', ih]

theorem getW_removeW_same (l : List (WorkerId × Worker)) (wid : WorkerId) :
    getW (removeW l wid) wid = Option.none := by
  induction l with
  | nil => simp [removeW, getW]
  | cons p r ih =>
    obtain ⟨k, x⟩ := p
    by_cases h : k = wid
    · simpa [removeW, getW, h] using ih
    · simpa [removeW, getW, h] using ih

theorem getW_removeW_other (l : List (WorkerId × Worker)) {wid wid' : WorkerId}
    (h : wid' ≠ wid) : getW (removeW l wid) wid' = getW l wid' := by
  induction l with
  | nil => simp [removeW, getW]
  | cons p r ih =>
    obtain ⟨k, x⟩ := p
    by_cases hp : k = wid
    · subst hp
      simpa [removeW, getW, Ne.symm h] using ih
    · by_cases hp' : k = wid'
      · subst hp'
        simp [removeW, getW, hp]
      · simpa [removeW, getW, hp, hp'] using ih

theorem setQ_same (q : Endpoint → List TaskId) (e : Endpoint) (l : List TaskId) :
    setQ q e l e = l := by
  simp [setQ]

theorem setQ_other (q : Endpoint → List TaskId) {x e : Endpoint} (l : List TaskId)
    (h : x ≠ e) : setQ q e l x = q x := by
  simp [setQ, h]

/-- A successful scan returns the first still-pending entry: the queue splits
as `pre ++ id :: rest` with every discarded entry of `pre` non-pending. -/
theorem scanQueue_some (s : DState) :
    ∀ q id t rest, scanQueue s q = (some (id, t), rest) →
    ∃ pre, q = pre ++ id :: rest ∧ (∀ j ∈ pre, ¬ IsPending s j) ∧
      s.tasks id = some t ∧ t.status = .pending := by
  intro q
  induction q with
  | nil => intro id t rest h; simp [scanQueue] at h
  | cons j r ih =>
    intro id t rest h
    cases hj : s.tasks j with
    | none =>
      obtain ⟨pre, hq, hpre, ht, hst⟩ := ih id t rest (by simpa [scanQueue, hj] using h)
      exact ⟨j :: pre, by simp [hq], by
        intro x hx
        rcases List.mem_cons.mp hx with hx | hx
        · subst hx; rintro ⟨u, hu, _⟩; simp [hj] at hu
        · exact hpre x hx, ht, hst⟩
    | some u =>
      by_cases hp : u.status = .pending
      · have h' := h
        simp only [scanQueue, hj, hp, if_pos rfl, if_true] at h'
        obtain ⟨h1, h3⟩ := Prod.mk.injEq _ _ _ _ ▸ h'
        obtain ⟨h1a, h1b⟩ := Prod.mk.injEq _ _ _ _ ▸ (Option.some.inj h1)
        subst h1a; subst h1b; subst h3
        exact ⟨[], by simp, by simp, hj, hp⟩
      · obtain ⟨pre, hq, hpre, ht, hst⟩ := ih id t rest (by simpa [scanQueue, hj, hp] using h)
        exact ⟨j :: pre, by simp [hq], by
          intro x hx
          rcases List.mem_cons.mp hx with hx | hx
          · subst hx; rintro ⟨v, hv, hvp⟩; rw [hj] at hv; cases hv; exact hp hvp
          · exact hpre x hx, ht, hst⟩

/-- An empty scan means no entry of the queue is still pending. -/
theorem scanQueue_none (s : DState) :
    ∀ q rest, scanQueue s q = (Option.none, rest) → ∀ j ∈ q, ¬ IsPending s j := by
  intro q
  induction q with
  | nil => intro rest _ j hj; simp at hj
  | cons j r ih =>
    intro rest h x hx
    cases hj : s.tasks j with
    | none =>
      rcases List.mem_cons.mp hx with hx | hx
      · subst hx; rintro ⟨u, hu, _⟩; simp [hj] at hu
      · exact ih rest (by simpa [scanQueue, hj] using h) x hx
    | some u =>
      by_cases hp : u.status = .pending
      · simp [scanQueue, hj, hp] at h
      · rcases List.mem_cons.mp hx with hx | hx
        · subst hx; rintro ⟨v, hv, hvp⟩; rw [hj] at hv; cases hv; exact hp hvp
        · exact ih rest (by simpa [scanQueue, hj, hp] using h) x hx

/-! ## The system invariant and its preservation. -/

/-- The inductive invariant of the dispatcher: `assigned_worker` is set iff
the task is `IN_PROGRESS`; a worker's `jobs_in_progress` holds exactly tasks
that are `IN_PROGRESS` and assigned to it; `current_jobs` counts
`jobs_in_progress`; queues are duplicate-free and hold only ids of
`PENDING`-or-lazily-`CANCELLED` tasks of their endpoint; ids at or above the
allocator are unused. -/
structure Inv (s : DState) : Prop where
  assignedIff : ∀ id t, s.tasks id = some t →
    (t.assignedWorker.isSome ↔ t.status = .inProgress)
  heldInProgress : ∀ wid w, getW s.workers wid = some w → ∀ id ∈ w.jobsInProgress,
    ∃ t, s.tasks id = some t ∧ t.status = .inProgress ∧ t.assignedWorker = some wid
  assignedHeld : ∀ id t wid, s.tasks id = some t → t.assignedWorker = some wid →
    ∃ w, getW s.workers wid = some w ∧ id ∈ w.jobsInProgress
  jobsCount : ∀ wid w, getW s.workers wid = some w →
    w.currentJobs = w.jobsInProgress.length
  jobsNodup : ∀ wid w, getW s.workers wid = some w → w.jobsInProgress.Nodup
  queueNodup : ∀ e, (s.queue e).Nodup
  queueTasks : ∀ e id, id ∈ s.queue e → ∃ t, s.tasks id = some t ∧ t.endpoint = e ∧
    (t.status = .pending ∨ t.status = .cancelled)
  fresh : ∀ id, s.nextId ≤ id → s.tasks id = Option.none

theorem Inv.init_inv : Inv init := by
  constructor <;> simp [init, getW]

/-- An existing record's id is below the allocator. -/
theorem Inv.id_lt_nextId {s : DState} (h : Inv s) {id : TaskId} {t : Task}
    (ht : s.tasks id = some t) : id < s.nextId := by
  by_contra hlt
  rw [h.fresh id (Nat.le_of_not_lt hlt)] at ht
  cases ht

/-- An `IN_PROGRESS` task is in no dispatch queue. -/
theorem Inv.notInQueue {s : DState} (h : Inv s) {id : TaskId} {t : Task}
    (ht : s.tasks id = some t) (hst : t.status = .inProgress) :
    ∀ e, id ∉ s.queue e := by
  intro e hmem
  obtain ⟨u, hu, _, hs⟩ := h.queueTasks e id hmem
  rw [ht] at hu
  cases hu
  rcases hs with hs | hs <;> rw [hst] at hs <;> cases hs

/-- A `PENDING` task is held by no worker. -/
theorem Inv.pending_not_held {s : DState} (h : Inv s) {id : TaskId} {t : Task}
    (ht : s.tasks id = some t) (hst : t.status = .pending) :
    ∀ wid w, getW s.workers wid = some w → id ∉ w.jobsInProgress := by
  intro wid w hw hmem
  obtain ⟨u, hu, hus, _⟩ := h.heldInProgress wid w hw id hmem
  rw [ht] at hu
  cases hu
  rw [hst] at hus
  cases hus

/-- A time tick preserves the invariant. -/
theorem tick_inv {s : DState} (h : Inv s) (d : Nat) :
    Inv { s with now := s.now + d } := by
  obtain ⟨h1, h2, h3, h4, h5, h6, h7, h8⟩ := h
  exact ⟨h1, h2, h3, h4, h5, h6, h7, h8⟩

/-- `registerOrHeartbeat` preserves the invariant. -/
theorem heartbeat_inv {s : DState} (h : Inv s) (wid : WorkerId) (e : Endpoint)
    (conc : Nat) : Inv (registerOrHeartbeat s wid e conc) := by
  unfold registerOrHeartbeat
  cases hw : getW s.workers wid with
  | some w =>
    refine ⟨h.assignedIff, ?_, ?_, ?_, ?_, h.queueNodup, h.queueTasks, h.fresh⟩
    · intro wid0 w0 hw0 id hid
      by_cases hww : wid0 = wid
      · subst hww
        rw [getW_setW_same] at hw0
        cases hw0
        exact h.heldInProgress wid0 w hw id hid
      · rw [getW_setW_other _ _ hww] at hw0
        exact h.heldInProgress wid0 w0 hw0 id hid
    · intro id t wid0 ht ha
      obtain ⟨w0, hw0, hmem⟩ := h.assignedHeld id t wid0 ht ha
      by_cases hww : wid0 = wid
      · subst hww
        rw [hw] at hw0
        cases hw0
        exact ⟨_, getW_setW_same _ _ _, hmem⟩
      · exact ⟨w0, by rw [getW_setW_other _ _ hww]; exact hw0, hmem⟩
    · intro wid0 w0 hw0
      by_cases hww : wid0 = wid
      · subst hww
        rw [getW_setW_same] at hw0
        cases hw0
        exact h.jobsCount wid0 w hw
      · rw [getW_setW_other _ _ hww] at hw0
        exact h.jobsCount wid0 w0 hw0
    · intro wid0 w0 hw0
      by_cases hww : wid0 = wid
      · subst hww
        rw [getW_setW_same] at hw0
        cases hw0
        exact h.jobsNodup wid0 w hw
      · rw [getW_setW_other _ _ hww] at hw0
        exact h.jobsNodup wid0 w0 hw0
  | none =>
    refine ⟨h.assignedIff, ?_, ?_, ?_, ?_, h.queueNodup, h.queueTasks, h.fresh⟩
    · intro wid0 w0 hw0 id hid
      by_cases hww : wid0 = wid
      · subst hww
        rw [getW_setW_same] at hw0
        cases hw0
        simp at hid
      · rw [getW_setW_other _ _ hww] at hw0
        exact h.heldInProgress wid0 w0 hw0 id hid
    · intro id t wid0 ht ha
      obtain ⟨w0, hw0, hmem⟩ := h.assignedHeld id t wid0 ht ha
      by_cases hww : wid0 = wid
      · subst hww
        rw [hw] at hw0
        cases hw0
      · exact ⟨w0, by rw [getW_setW_other _ _ hww]; exact hw0, hmem⟩
    · intro wid0 w0 hw0
      by_cases hww : wid0 = wid
      · subst hww
        rw [getW_setW_same] at hw0
        cases hw0
        rfl
      · rw [getW_setW_other _ _ hww] at hw0
        exact h.jobsCount wid0 w0 hw0
    · intro wid0 w0 hw0
      by_cases hww : wid0 = wid
      · subst hww
        rw [getW_setW_same] at hw0
        cases hw0
        simp
      · rw [getW_setW_other _ _ hww] at hw0
        exact h.jobsNodup wid0 w0 hw0

/-- No queue mentions an unallocated id. -/
theorem Inv.fresh_notInQueue {s : DState} (h : Inv s) {id : TaskId}
    (hid : s.nextId ≤ id) : ∀ e, id ∉ s.queue e := by
  intro e hmem
  obtain ⟨t, ht, _, _⟩ := h.queueTasks e id hmem
  rw [h.fresh id hid] at ht
  cases ht

/-- The task record that `create` allocates. -/
def newTask (s : DState) (e : Endpoint) (inp : PyVal) : Task :=
  { endpoint := e, input := inp, output := Option.none, status := .pending,
    error := Option.none, createdAt := some s.now, startedAt := Option.none,
    completedAt := Option.none, assignedWorker := Option.none, retries := 0 }

/-- Unfolding equation for `submit`. -/
theorem submit_eq (s : DState) (e : Endpoint) (inp : PyVal) :
    submit s e inp =
      (s.nextId,
       { tasks := updT s.tasks s.nextId (newTask s e inp),
         workers := s.workers,
         queue := setQ s.queue e (s.queue e ++ [s.nextId]),
         nextId := s.nextId + 1, now := s.now }) := rfl

/-- `submit` (create + enqueue) preserves the invariant. -/
theorem submit_inv {s : DState} (h : Inv s) (e : Endpoint) (inp : PyVal) :
    Inv (submit s e inp).2 := by
  rw [submit_eq]
  have hfq := h.fresh_notInQueue (Nat.le_refl s.nextId)
  have hfr : s.tasks s.nextId = Option.none := h.fresh s.nextId (Nat.le_refl _)
  refine ⟨?_, ?_, ?_, h.jobsCount, h.jobsNodup, ?_, ?_, ?_⟩
  · intro id t ht
    dsimp only at ht
    by_cases hid : id = s.nextId
    · rw [hid, updT_same] at ht
      cases ht
      simp [newTask]
    · rw [updT_other _ _ hid] at ht
      exact h.assignedIff id t ht
  · intro wid w hw id hid
    dsimp only at hw ⊢
    obtain ⟨t, ht, hst, ha⟩ := h.heldInProgress wid w hw id hid
    have hid' : id ≠ s.nextId := fun hc => by rw [hc, hfr] at ht; cases ht
    exact ⟨t, by rw [updT_other _ _ hid']; exact ht, hst, ha⟩
  · intro id t wid ht ha
    dsimp only at ht ⊢
    by_cases hid : id = s.nextId
    · rw [hid, updT_same] at ht
      cases ht
      cases ha
    · rw [updT_other _ _ hid] at ht
      exact h.assignedHeld id t wid ht ha
  · intro x
    dsimp only
    by_cases hx : x = e
    · rw [hx, setQ_same]
      exact List.Nodup.append (h.queueNodup e) (List.nodup_singleton _)
        (by intro a ha hb
            rw [List.mem_singleton] at hb
            subst hb
            exact hfq e ha)
    · rw [setQ_other _ _ hx]
      exact h.queueNodup x
  · intro x id hmem
    dsimp only at hmem ⊢
    by_cases hx : x = e
    · subst hx
      rw [setQ_same] at hmem
      rcases List.mem_append.mp hmem with hmem | hmem
      · obtain ⟨t, ht, hte, hts⟩ := h.queueTasks x id hmem
        have hid' : id ≠ s.nextId := fun hc => by rw [hc, hfr] at ht; cases ht
        exact ⟨t, by rw [updT_other _ _ hid']; exact ht, hte, hts⟩
      · rw [List.mem_singleton] at hmem
        rw [hmem, updT_same]
        exact ⟨_, rfl, rfl, Or.inl rfl⟩
    · rw [setQ_other _ _ hx] at hmem
      obtain ⟨t, ht, hte, hts⟩ := h.queueTasks x id hmem
      have hid' : id ≠ s.nextId := fun hc => by rw [hc, hfr] at ht; cases ht
      exact ⟨t, by rw [updT_other _ _ hid']; exact ht, hte, hts⟩
  · intro id hid
    dsimp only at hid ⊢
    have h1 : id ≠ s.nextId := fun hc => by
      rw [hc] at hid
      exact Nat.not_succ_le_self s.nextId hid
    rw [updT_other _ _ h1]
    exact h.fresh id (Nat.le_of_succ_le hid)

/-- `takeNext` when the worker is unknown: Empty, state unchanged. -/
theorem takeNext_no_worker {s : DState} {e : Endpoint} {wid : WorkerId} (n : Nat)
    (hw : getW s.workers wid = Option.none) :
    takeNext s e wid n = (Option.none, s) := by
  unfold takeNext
  rw [hw]

/-- `takeNext` at zero available capacity: Empty, state unchanged. -/
theorem takeNext_full {s : DState} {e : Endpoint} {wid : WorkerId} {w : Worker} (n : Nat)
    (hw : getW s.workers wid = some w) (hc : w.concurrency ≤ w.currentJobs) :
    takeNext s e wid n = (Option.none, s) := by
  unfold takeNext
  rw [hw]
  simp [hc]

/-- `takeNext` when the scan finds no pending entry: Empty, queue drained. -/
theorem takeNext_exhausted {s : DState} {e : Endpoint} {wid : WorkerId} {w : Worker}
    {rest : List TaskId} (n : Nat) (hw : getW s.workers wid = some w)
    (hc : ¬ w.concurrency ≤ w.currentJobs)
    (hscan : scanQueue s (s.queue e) = (Option.none, rest)) :
    takeNext s e wid n = (Option.none, { s with queue := setQ s.queue e [] }) := by
  unfold takeNext
  rw [hw]
  simp only [hc, if_false]
  rw [hscan]

/-- `takeNext` on a successful claim: the explicit task, worker and queue
updates. -/
theorem takeNext_success {s : DState} {e : Endpoint} {wid : WorkerId} {w : Worker}
    {id : TaskId} {t : Task} {rest : List TaskId} (n : Nat)
    (hw : getW s.workers wid = some w) (hc : ¬ w.concurrency ≤ w.currentJobs)
    (hscan : scanQueue s (s.queue e) = (some (id, t), rest)) :
    takeNext s e wid n =
      (some (id, { t with status := .inProgress, assignedWorker := some wid,
                          startedAt := some s.now }),
       { tasks := updT s.tasks id
           ({ t with status := .inProgress, assignedWorker := some wid,
                     startedAt := some s.now }),
         workers := setW s.workers wid
           ({ w with currentJobs := w.currentJobs + 1,
                     jobsInProgress := id :: w.jobsInProgress }),
         queue := setQ s.queue e rest,
         nextId := s.nextId, now := s.now }) := by
  unfold takeNext
  rw [hw]
  simp only [hc, if_false]
  rw [hscan]

/-- `takeNext` preserves the invariant. -/
theorem take_inv {s : DState} (h : Inv s) (e : Endpoint) (wid : WorkerId) (n : Nat) :
    Inv (takeNext s e wid n).2 := by
  cases hw : getW s.workers wid with
  | none =>
    rw [takeNext_no_worker n hw]
    exact h
  | some w =>
    by_cases hc : w.concurrency ≤ w.currentJobs
    · rw [takeNext_full n hw hc]
      exact h
    · cases hscan : scanQueue s (s.queue e) with
      | mk res rest =>
        cases res with
        | none =>
          rw [takeNext_exhausted n hw hc hscan]
          refine ⟨h.assignedIff, h.heldInProgress, h.assignedHeld, h.jobsCount,
            h.jobsNodup, ?_, ?_, h.fresh⟩
          · intro x
            dsimp only
            by_cases hx : x = e
            · rw [hx, setQ_same]; exact List.nodup_nil
            · rw [setQ_other _ _ hx]; exact h.queueNodup x
          · intro x id hmem
            dsimp only at hmem
            by_cases hx : x = e
            · rw [hx, setQ_same] at hmem; cases hmem
            · rw [setQ_other _ _ hx] at hmem
              exact h.queueTasks x id hmem
        | some p =>
          obtain ⟨id, t⟩ := p
          rw [takeNext_success n hw hc hscan]
          obtain ⟨pre, hsplit, hpre, ht, hst⟩ := scanQueue_some s _ id t rest hscan
          have hnotheld := h.pending_not_held ht hst
          have hqe : id ∈ s.queue e := by rw [hsplit]; simp
          have hqnd : (s.queue e).Nodup := h.queueNodup e
          have hidrest : id ∉ rest := by
            rw [hsplit] at hqnd
            exact (List.nodup_cons.mp (List.nodup_append.mp hqnd).2.1).1
          have hrest_sub : ∀ j ∈ rest, j ∈ s.queue e := by
            intro j hj
            rw [hsplit]
            simp [hj]
          refine ⟨?_, ?_, ?_, ?_, ?_, ?_, ?_, ?_⟩
          · intro j u hu
            dsimp only at hu
            by_cases hj : j = id
            · rw [hj, updT_same] at hu
              cases hu
              simp
            · rw [updT_other _ _ hj] at hu
              exact h.assignedIff j u hu
          · intro wid0 w0 hw0 j hj
            dsimp only at hw0 ⊢
            by_cases hww : wid0 = wid
            · rw [hww, getW_setW_same] at hw0
              cases hw0
              rcases List.mem_cons.mp hj with hj | hj
              · rw [hj, updT_same]
                exact ⟨_, rfl, rfl, hww ▸ rfl⟩
              · obtain ⟨u, hu, hus, hua⟩ := h.heldInProgress wid w hw j hj
                have hne : j ≠ id := fun hcj => hnotheld wid w hw (hcj ▸ hj)
                exact ⟨u, by rw [updT_other _ _ hne]; exact hu, hus, hww ▸ hua⟩
            · rw [getW_setW_other _ _ hww] at hw0
              obtain ⟨u, hu, hus, hua⟩ := h.heldInProgress wid0 w0 hw0 j hj
              have hne : j ≠ id := fun hcj => hnotheld wid0 w0 hw0 (hcj ▸ hj)
              exact ⟨u, by rw [updT_other _ _ hne]; exact hu, hus, hua⟩
          · intro j u wid0 hu ha
            dsimp only at hu ⊢
            by_cases hj : j = id
            · rw [hj, updT_same] at hu
              cases hu
              cases ha
              exact ⟨_, getW_setW_same _ _ _, by rw [hj]; simp⟩
            · rw [updT_other _ _ hj] at hu
              obtain ⟨w0, hw0, hmem⟩ := h.assignedHeld j u wid0 hu ha
              by_cases hww : wid0 = wid
              · rw [hww, hw] at hw0
                cases hw0
                refine ⟨_, by rw [hww]; exact getW_setW_same _ _ _, ?_⟩
                simp [hmem]
              · exact ⟨w0, by rw [getW_setW_other _ _ hww]; exact hw0, hmem⟩
          · intro wid0 w0 hw0
            dsimp only at hw0
            by_cases hww : wid0 = wid
            · rw [hww, getW_setW_same] at hw0
              cases hw0
              simp [h.jobsCount wid w hw]
            · rw [getW_setW_other _ _ hww] at hw0
              exact h.jobsCount wid0 w0 hw0
          · intro wid0 w0 hw0
            dsimp only at hw0
            by_cases hww : wid0 = wid
            · rw [hww, getW_setW_same] at hw0
              cases hw0
              exact List.nodup_cons.mpr ⟨hnotheld wid w hw, h.jobsNodup wid w hw⟩
            · rw [getW_setW_other _ _ hww] at hw0
              exact h.jobsNodup wid0 w0 hw0
          · intro x
            dsimp only
            by_cases hx : x = e
            · rw [hx, setQ_same]
              rw [hsplit] at hqnd
              exact ((List.nodup_append.mp hqnd).2.1).of_cons
            · rw [setQ_other _ _ hx]
              exact h.queueNodup x
          · intro x j hmem
            dsimp only at hmem ⊢
            by_cases hx : x = e
            · rw [hx, setQ_same] at hmem
              obtain ⟨u, hu, hue, hus⟩ := h.queueTasks e j (hrest_sub j hmem)
              have hne : j ≠ id := fun hcj => hidrest (hcj ▸ hmem)
              exact ⟨u, by rw [updT_other _ _ hne]; exact hu, hx ▸ hue, hus⟩
            · rw [setQ_other _ _ hx] at hmem
              obtain ⟨u, hu, hue, hus⟩ := h.queueTasks x j hmem
              have hne : j ≠ id := by
                intro hcj
                obtain ⟨v', hv', hve', _⟩ := h.queueTasks e j (hcj ▸ hqe)
                rw [hu] at hv'
                cases hv'
                exact hx (hue ▸ hve')
              exact ⟨u, by rw [updT_other _ _ hne]; exact hu, hue, hus⟩
          · intro j hj
            dsimp only at hj ⊢
            have hne : j ≠ id := fun hcj => by
              rw [hcj] at hj
              exact absurd (h.id_lt_nextId ht) (Nat.not_lt.mpr hj)
            rw [updT_other _ _ hne]
            exact h.fresh j hj

/-- Unfolding equation for `releaseSlot` when the worker holds the task. -/
theorem releaseSlot_eq {s : DState} {wid : WorkerId} {w : Worker} {id : TaskId}
    (hw : getW s.workers wid = some w) (hm : id ∈ w.jobsInProgress) :
    releaseSlot s wid id =
      { s with workers := setW s.workers wid (releasedWorker w id) } := by
  unfold releaseSlot
  rw [hw]
  simp [hm]

/-- Unfolding equation for `cancel` on an unknown id. -/
theorem cancel_notFound {s : DState} {id : TaskId} (ht : s.tasks id = Option.none) :
    cancel s id = (Option.none, s) := by
  unfold cancel
  rw [ht]

/-- Unfolding equation for `cancel` on a `PENDING` task. -/
theorem cancel_pending {s : DState} {id : TaskId} {t : Task}
    (ht : s.tasks id = some t) (hst : t.status = .pending) :
    cancel s id =
      (some .cancelled, { s with tasks := updT s.tasks id (cancelledTask t s.now) }) := by
  unfold cancel
  rw [ht]
  simp only [hst]

/-- Unfolding equation for `cancel` on an `IN_PROGRESS` task. -/
theorem cancel_inProgress {s : DState} {id : TaskId} {t : Task} {wid : WorkerId}
    (ht : s.tasks id = some t) (hst : t.status = .inProgress)
    (ha : t.assignedWorker = some wid) :
    cancel s id =
      (some .cancelled,
       releaseSlot { s with tasks := updT s.tasks id (cancelledTask t s.now) } wid id) := by
  unfold cancel
  rw [ht]
  simp only [hst, ha]

/-- Unfolding equation for `cancel` on a terminal task: a no-op returning the
existing status. -/
theorem cancel_terminal {s : DState} {id : TaskId} {t : Task}
    (ht : s.tasks id = some t) (hterm : isTerminal t.status = true) :
    cancel s id = (some t.status, s) := by
  unfold cancel
  rw [ht]
  cases hstat : t.status
  case pending => rw [hstat] at hterm; simp [isTerminal] at hterm
  case inProgress => rw [hstat] at hterm; simp [isTerminal] at hterm
  case completed => simp only [hstat]
  case failed => simp only [hstat]
  case cancelled => simp only [hstat]

/-- Unfolding equation for `applyResult` on an unknown id. -/
theorem applyResult_notFound {s : DState} {id : TaskId} (wid : WorkerId) (oc : Outcome)
    (ht : s.tasks id = Option.none) :
    applyResult s id wid oc = (.notFound, s) := by
  unfold applyResult
  rw [ht]

/-- Unfolding equation for `applyResult` when the task is not `IN_PROGRESS`
under this worker: `Conflict`, state unchanged. -/
theorem applyResult_conflict {s : DState} {id : TaskId} {t : Task} (wid : WorkerId)
    (oc : Outcome) (ht : s.tasks id = some t)
    (hc : ¬ (t.status = .inProgress ∧ t.assignedWorker = some wid)) :
    applyResult s id wid oc = (.conflict, s) := by
  unfold applyResult
  rw [ht]
  simp [hc]

/-- Unfolding equation for `applyResult` on a valid report. -/
theorem applyResult_ok {s : DState} {id : TaskId} {t : Task} {wid : WorkerId}
    (oc : Outcome) (ht : s.tasks id = some t) (hst : t.status = .inProgress)
    (ha : t.assignedWorker = some wid) :
    applyResult s id wid oc =
      (.ok, releaseSlot { s with tasks := updT s.tasks id (finishTask t oc s.now) } wid id) := by
  unfold applyResult
  rw [ht]
  simp only [hst, ha, and_self, if_true]

/-- Unfolding equation for `releaseSlot` applied after a task-store update,
in flat record form. -/
theorem releaseSlot_updT (s : DState) (t' : Task) {wid : WorkerId} {w : Worker}
    {id : TaskId} (hw : getW s.workers wid = some w) (hm : id ∈ w.jobsInProgress) :
    releaseSlot { s with tasks := updT s.tasks id t' } wid id =
      { tasks := updT s.tasks id t', workers := setW s.workers wid (releasedWorker w id),
        queue := s.queue, nextId := s.nextId, now := s.now } := by
  unfold releaseSlot
  rw [show ({ s with tasks := updT s.tasks id t' } : DState).workers = s.workers from rfl]
  rw [hw]
  simp [hm]

/-- The common shape of cancelling or completing an `IN_PROGRESS` task:
replace its record by one that is no longer `IN_PROGRESS` with
`assigned_worker` cleared, and release the holder's slot.  This preserves the
invariant. -/
theorem finish_inv {s : DState} (h : Inv s) {id : TaskId} {t : Task} {wid : WorkerId}
    (ht : s.tasks id = some t) (hst : t.status = .inProgress)
    (ha : t.assignedWorker = some wid) (t' : Task)
    (ht'a : t'.assignedWorker = Option.none) (ht's : t'.status ≠ .inProgress) :
    Inv (releaseSlot { s with tasks := updT s.tasks id t' } wid id) := by
  obtain ⟨w, hw, hmem⟩ := h.assignedHeld id t wid ht ha
  have hwnd : w.jobsInProgress.Nodup := h.jobsNodup wid w hw
  rw [releaseSlot_updT s t' hw hmem]
  have hnq := h.notInQueue ht hst
  refine ⟨?_, ?_, ?_, ?_, ?_, h.queueNodup, ?_, ?_⟩
  · intro j u hu
    dsimp only at hu
    by_cases hj : j = id
    · rw [hj, updT_same] at hu
      cases hu
      simp [ht'a, ht's]
    · rw [updT_other _ _ hj] at hu
      exact h.assignedIff j u hu
  · intro wid0 w0 hw0 j hj
    dsimp only at hw0 ⊢
    by_cases hww : wid0 = wid
    · rw [hww, getW_setW_same] at hw0
      cases hw0
      dsimp only [releasedWorker] at hj
      have hj' := (List.Nodup.mem_erase_iff hwnd).mp hj
      obtain ⟨u, hu, hus, hua⟩ := h.heldInProgress wid w hw j hj'.2
      exact ⟨u, by rw [updT_other _ _ hj'.1]; exact hu, hus, hww ▸ hua⟩
    · rw [getW_setW_other _ _ hww] at hw0
      obtain ⟨u, hu, hus, hua⟩ := h.heldInProgress wid0 w0 hw0 j hj
      have hne : j ≠ id := by
        intro hcj
        rw [hcj, ht] at hu
        cases hu
        rw [ha] at hua
        cases hua
        exact hww rfl
      exact ⟨u, by rw [updT_other _ _ hne]; exact hu, hus, hua⟩
  · intro j u wid0 hu hua
    dsimp only at hu ⊢
    by_cases hj : j = id
    · rw [hj, updT_same] at hu
      cases hu
      rw [ht'a] at hua
      cases hua
    · rw [updT_other _ _ hj] at hu
      obtain ⟨w0, hw0, hmem0⟩ := h.assignedHeld j u wid0 hu hua
      by_cases hww : wid0 = wid
      · rw [hww, hw] at hw0
        cases hw0
        refine ⟨_, by rw [hww]; exact getW_setW_same _ _ _, ?_⟩
        exact (List.Nodup.mem_erase_iff hwnd).mpr ⟨hj, hmem0⟩
      · exact ⟨w0, by rw [getW_setW_other _ _ hww]; exact hw0, hmem0⟩
  · intro wid0 w0 hw0
    dsimp only at hw0
    by_cases hww : wid0 = wid
    · rw [hww, getW_setW_same] at hw0
      cases hw0
      dsimp only [releasedWorker]
      rw [h.jobsCount wid w hw, List.length_erase_of_mem hmem]
    · rw [getW_setW_other _ _ hww] at hw0
      exact h.jobsCount wid0 w0 hw0
  · intro wid0 w0 hw0
    dsimp only at hw0
    by_cases hww : wid0 = wid
    · rw [hww, getW_setW_same] at hw0
      cases hw0
      exact hwnd.erase id
    · rw [getW_setW_other _ _ hww] at hw0
      exact h.jobsNodup wid0 w0 hw0
  · intro x j hmem0
    obtain ⟨u, hu, hue, hus⟩ := h.queueTasks x j hmem0
    have hne : j ≠ id := fun hcj => hnq x (hcj ▸ hmem0)
    exact ⟨u, (updT_other _ _ hne).trans hu, hue, hus⟩
  · intro j hj
    have hne : j ≠ id := fun hcj => by
      rw [hcj] at hj
      exact absurd (h.id_lt_nextId ht) (Nat.not_lt.mpr hj)
    dsimp only
    rw [updT_other _ _ hne]
    exact h.fresh j hj

/-- Cancelling a `PENDING` task preserves the invariant. -/
theorem cancel_pending_inv {s : DState} (h : Inv s) {id : TaskId} {t : Task}
    (ht : s.tasks id = some t) (hst : t.status = .pending) :
    Inv (cancel s id).2 := by
  rw [cancel_pending ht hst]
  have hnh := h.pending_not_held ht hst
  refine ⟨?_, ?_, ?_, h.jobsCount, h.jobsNodup, h.queueNodup, ?_, ?_⟩
  · intro j u hu
    dsimp only at hu
    by_cases hj : j = id
    · rw [hj, updT_same] at hu
      cases hu
      simp [cancelledTask]
    · rw [updT_other _ _ hj] at hu
      exact h.assignedIff j u hu
  · intro wid0 w0 hw0 j hj
    obtain ⟨u, hu, hus, hua⟩ := h.heldInProgress wid0 w0 hw0 j hj
    have hne : j ≠ id := fun hcj => hnh wid0 w0 hw0 (hcj ▸ hj)
    exact ⟨u, by dsimp only; rw [updT_other _ _ hne]; exact hu, hus, hua⟩
  · intro j u wid0 hu hua
    dsimp only at hu
    by_cases hj : j = id
    · rw [hj, updT_same] at hu
      cases hu
      cases hua
    · rw [updT_other _ _ hj] at hu
      exact h.assignedHeld j u wid0 hu hua
  · intro x j hmem
    dsimp only at hmem ⊢
    by_cases hj : j = id
    · obtain ⟨u, hu, hue, _⟩ := h.queueTasks x j hmem
      rw [hj, ht] at hu
      cases hu
      rw [hj, updT_same]
      exact ⟨_, rfl, hue, Or.inr rfl⟩
    · obtain ⟨u, hu, hue, hus⟩ := h.queueTasks x j hmem
      exact ⟨u, by rw [updT_other _ _ hj]; exact hu, hue, hus⟩
  · intro j hj
    dsimp only at hj ⊢
    have hne : j ≠ id := fun hcj => by
      rw [hcj] at hj
      exact absurd (h.id_lt_nextId ht) (Nat.not_lt.mpr hj)
    rw [updT_other _ _ hne]
    exact h.fresh j hj

/-- `cancel` preserves the invariant. -/
theorem cancel_inv {s : DState} (h : Inv s) (id : TaskId) : Inv (cancel s id).2 := by
  cases ht : s.tasks id with
  | none =>
    rw [cancel_notFound ht]
    exact h
  | some t =>
    cases hst : t.status with
    | pending => exact cancel_pending_inv h ht hst
    | inProgress =>
      have hsome : t.assignedWorker.isSome := (h.assignedIff id t ht).mpr hst
      cases ha : t.assignedWorker with
      | none => rw [ha] at hsome; cases hsome
      | some wid =>
        rw [cancel_inProgress ht hst ha]
        exact finish_inv h ht hst ha _ rfl (by intro hcc; cases hcc)
    | completed =>
      rw [cancel_terminal ht (by rw [hst]; rfl)]
      exact h
    | failed =>
      rw [cancel_terminal ht (by rw [hst]; rfl)]
      exact h
    | cancelled =>
      rw [cancel_terminal ht (by rw [hst]; rfl)]
      exact h

/-- `applyResult` preserves the invariant. -/
theorem report_inv {s : DState} (h : Inv s) (id : TaskId) (wid : WorkerId)
    (oc : Outcome) : Inv (applyResult s id wid oc).2 := by
  cases ht : s.tasks id with
  | none =>
    rw [applyResult_notFound wid oc ht]
    exact h
  | some t =>
    by_cases hc : t.status = .inProgress ∧ t.assignedWorker = some wid
    · rw [applyResult_ok oc ht hc.1 hc.2]
      refine finish_inv h ht hc.1 hc.2 _ ?_ ?_
      · cases oc <;> rfl
      · cases oc <;> intro hcc <;> cases hcc
    · rw [applyResult_conflict wid oc ht hc]
      exact h

/-- A defined registry lookup after removal forces a different key. -/
theorem getW_removeW_some {l : List (WorkerId × Worker)} {wid wid0 : WorkerId}
    {w0 : Worker} (h : getW (removeW l wid) wid0 = some w0) :
    wid0 ≠ wid ∧ getW l wid0 = some w0 := by
  by_cases hww : wid0 = wid
  · rw [hww, getW_removeW_same] at h
    cases h
  · rw [getW_removeW_other _ hww] at h
    exact ⟨hww, h⟩

/-- Unfolding equation for `requeueTask` in the requeue branch. -/
theorem requeueTask_requeue {s : DState} {id : TaskId} {t : Task} {mr : Nat}
    (ht : s.tasks id = some t) (hst : t.status = .inProgress) (hr : t.retries < mr) :
    requeueTask s mr id =
      { s with tasks := updT s.tasks id (requeuedTask t),
               queue := setQ s.queue t.endpoint (id :: s.queue t.endpoint) } := by
  unfold requeueTask
  rw [ht]
  simp only [hst, hr, if_true]

/-- Unfolding equation for `requeueTask` in the retry-exhausted branch. -/
theorem requeueTask_fail {s : DState} {id : TaskId} {t : Task} {mr : Nat}
    (ht : s.tasks id = some t) (hst : t.status = .inProgress) (hr : ¬ t.retries < mr) :
    requeueTask s mr id = { s with tasks := updT s.tasks id (failedTask t s.now) } := by
  unfold requeueTask
  rw [ht]
  simp only [hst, hr, if_true, if_false]

/-- `requeueTask` on a task that is not `IN_PROGRESS` is a no-op. -/
theorem requeueTask_skip {s : DState} {id : TaskId} {t : Task} (mr : Nat)
    (ht : s.tasks id = some t) (hst : ¬ t.status = .inProgress) :
    requeueTask s mr id = s := by
  unfold requeueTask
  rw [ht]
  simp only [hst, if_false]

/-- `requeueTask` on an unknown id is a no-op. -/
theorem requeueTask_notFound {s : DState} {id : TaskId} (mr : Nat)
    (ht : s.tasks id = Option.none) : requeueTask s mr id = s := by
  unfold requeueTask
  rw [ht]

/-- The intermediate invariant during eviction: the full invariant except
that the tasks listed in `L` (the evicted worker's held tasks, not yet
requeued) are `IN_PROGRESS` with a dangling `assigned_worker`, absent from
all queues and held by no registered worker. -/
structure InvE (s : DState) (L : List TaskId) : Prop where
  assignedIff : ∀ id t, s.tasks id = some t →
    (t.assignedWorker.isSome ↔ t.status = .inProgress)
  heldInProgress : ∀ wid w, getW s.workers wid = some w → ∀ id ∈ w.jobsInProgress,
    ∃ t, s.tasks id = some t ∧ t.status = .inProgress ∧ t.assignedWorker = some wid
  assignedHeldE : ∀ id t wid, s.tasks id = some t → t.assignedWorker = some wid →
    id ∉ L → ∃ w, getW s.workers wid = some w ∧ id ∈ w.jobsInProgress
  jobsCount : ∀ wid w, getW s.workers wid = some w →
    w.currentJobs = w.jobsInProgress.length
  jobsNodup : ∀ wid w, getW s.workers wid = some w → w.jobsInProgress.Nodup
  queueNodup : ∀ e, (s.queue e).Nodup
  queueTasks : ∀ e id, id ∈ s.queue e → ∃ t, s.tasks id = some t ∧ t.endpoint = e ∧
    (t.status = .pending ∨ t.status = .cancelled)
  fresh : ∀ id, s.nextId ≤ id → s.tasks id = Option.none
  heldL : ∀ id ∈ L, ∃ t, s.tasks id = some t ∧ t.status = .inProgress ∧
    (∀ e, id ∉ s.queue e) ∧ ∀ wid w, getW s.workers wid = some w → id ∉ w.jobsInProgress
  nodupL : L.Nodup

/-- An existing record's id is below the allocator (intermediate form). -/
theorem InvE.id_lt_nextId' {s : DState} {L : List TaskId} (h : InvE s L)
    {id : TaskId} {t : Task} (ht : s.tasks id = some t) : id < s.nextId := by
  by_contra hlt
  rw [h.fresh id (Nat.le_of_not_lt hlt)] at ht
  cases ht

/-- With no pending requeues, the intermediate invariant is the invariant. -/
theorem InvE.toInv {s : DState} (h : InvE s []) : Inv s :=
  ⟨h.assignedIff, h.heldInProgress,
   fun id t wid ht ha => h.assignedHeldE id t wid ht ha (by simp),
   h.jobsCount, h.jobsNodup, h.queueNodup, h.queueTasks, h.fresh⟩

/-- One requeue step shrinks the pending list of the intermediate invariant. -/
theorem requeue_step {s : DState} {mr : Nat} {id : TaskId} {L : List TaskId}
    (h : InvE s (id :: L)) : InvE (requeueTask s mr id) L := by
  obtain ⟨t, ht, hst, hnq, hnh⟩ := h.heldL id (List.mem_cons_self id L)
  have hnodup := List.nodup_cons.mp h.nodupL
  by_cases hr : t.retries < mr
  · rw [requeueTask_requeue ht hst hr]
    refine ⟨?_, ?_, ?_, h.jobsCount, h.jobsNodup, ?_, ?_, ?_, ?_, hnodup.2⟩
    · intro j u hu
      dsimp only at hu
      by_cases hj : j = id
      · rw [hj, updT_same] at hu
        cases hu
        simp [requeuedTask]
      · rw [updT_other _ _ hj] at hu
        exact h.assignedIff j u hu
    · intro wid0 w0 hw0 j hj
      obtain ⟨u, hu, hus, hua⟩ := h.heldInProgress wid0 w0 hw0 j hj
      have hne : j ≠ id := fun hcj => hnh wid0 w0 hw0 (hcj ▸ hj)
      exact ⟨u, (updT_other _ _ hne).trans hu, hus, hua⟩
    · intro j u wid0 hu hua hjL
      dsimp only at hu
      by_cases hj : j = id
      · rw [hj, updT_same] at hu
        cases hu
        cases hua
      · rw [updT_other _ _ hj] at hu
        exact h.assignedHeldE j u wid0 hu hua (by
          intro hc
          rcases List.mem_cons.mp hc with hc | hc
          · exact hj hc
          · exact hjL hc)
    · intro x
      dsimp only
      by_cases hx : x = t.endpoint
      · rw [hx, setQ_same]
        exact List.nodup_cons.mpr ⟨hnq t.endpoint, h.queueNodup t.endpoint⟩
      · rw [setQ_other _ _ hx]
        exact h.queueNodup x
    · intro x j hmem
      dsimp only at hmem ⊢
      by_cases hx : x = t.endpoint
      · rw [hx, setQ_same] at hmem
        rcases List.mem_cons.mp hmem with hmem | hmem
        · rw [hmem, updT_same]
          exact ⟨_, rfl, hx ▸ rfl, Or.inl rfl⟩
        · obtain ⟨u, hu, hue, hus⟩ := h.queueTasks t.endpoint j hmem
          have hne : j ≠ id := fun hcj => hnq t.endpoint (hcj ▸ hmem)
          exact ⟨u, (updT_other _ _ hne).trans hu, hx ▸ hue, hus⟩
      · rw [setQ_other _ _ hx] at hmem
        obtain ⟨u, hu, hue, hus⟩ := h.queueTasks x j hmem
        have hne : j ≠ id := fun hcj => hnq x (hcj ▸ hmem)
        exact ⟨u, (updT_other _ _ hne).trans hu, hue, hus⟩
    · intro j hj
      dsimp only
      have hne : j ≠ id := fun hcj => by
        rw [hcj] at hj
        exact absurd (h.id_lt_nextId' ht) (Nat.not_lt.mpr hj)
      rw [updT_other _ _ hne]
      exact h.fresh j hj
    · intro j hjL
      obtain ⟨u, hu, hus, hnqu, hnhu⟩ := h.heldL j (List.mem_cons_of_mem id hjL)
      have hne : j ≠ id := fun hcj => hnodup.1 (hcj ▸ hjL)
      refine ⟨u, (updT_other _ _ hne).trans hu, hus, ?_, hnhu⟩
      intro x
      dsimp only
      by_cases hx : x = t.endpoint
      · rw [hx, setQ_same]
        intro hc
        rcases List.mem_cons.mp hc with hc | hc
        · exact hne hc
        · exact hnqu t.endpoint hc
      · rw [setQ_other _ _ hx]
        exact hnqu x
  · rw [requeueTask_fail ht hst hr]
    refine ⟨?_, ?_, ?_, h.jobsCount, h.jobsNodup, h.queueNodup, ?_, ?_, ?_, hnodup.2⟩
    · intro j u hu
      dsimp only at hu
      by_cases hj : j = id
      · rw [hj, updT_same] at hu
        cases hu
        simp [failedTask]
      · rw [updT_other _ _ hj] at hu
        exact h.assignedIff j u hu
    · intro wid0 w0 hw0 j hj
      obtain ⟨u, hu, hus, hua⟩ := h.heldInProgress wid0 w0 hw0 j hj
      have hne : j ≠ id := fun hcj => hnh wid0 w0 hw0 (hcj ▸ hj)
      exact ⟨u, (updT_other _ _ hne).trans hu, hus, hua⟩
    · intro j u wid0 hu hua hjL
      dsimp only at hu
      by_cases hj : j = id
      · rw [hj, updT_same] at hu
        cases hu
        cases hua
      · rw [updT_other _ _ hj] at hu
        exact h.assignedHeldE j u wid0 hu hua (by
          intro hc
          rcases List.mem_cons.mp hc with hc | hc
          · exact hj hc
          · exact hjL hc)
    · intro x j hmem
      obtain ⟨u, hu, hue, hus⟩ := h.queueTasks x j hmem
      have hne : j ≠ id := fun hcj => hnq x (hcj ▸ hmem)
      exact ⟨u, (updT_other _ _ hne).trans hu, hue, hus⟩
    · intro j hj
      dsimp only
      have hne : j ≠ id := fun hcj => by
        rw [hcj] at hj
        exact absurd (h.id_lt_nextId' ht) (Nat.not_lt.mpr hj)
      rw [updT_other _ _ hne]
      exact h.fresh j hj
    · intro j hjL
      obtain ⟨u, hu, hus, hnqu, hnhu⟩ := h.heldL j (List.mem_cons_of_mem id hjL)
      have hne : j ≠ id := fun hcj => hnodup.1 (hcj ▸ hjL)
      exact ⟨u, (updT_other _ _ hne).trans hu, hus, hnqu, hnhu⟩

/-- `requeueAll` turns the intermediate invariant into the invariant. -/
theorem requeueAll_inv {mr : Nat} : ∀ (L : List TaskId) (s : DState), InvE s L →
    Inv (requeueAll s mr L) := by
  intro L
  induction L with
  | nil => intro s h; exact h.toInv
  | cons id rest ih => intro s h; exact ih _ (requeue_step h)

/-- `evictWorker` preserves the invariant. -/
theorem evictWorker_inv {s : DState} (h : Inv s) (mr : Nat) (wid : WorkerId) :
    Inv (evictWorker s mr wid) := by
  unfold evictWorker
  cases hw : getW s.workers wid with
  | none => exact h
  | some w =>
    apply requeueAll_inv
    refine ⟨h.assignedIff, ?_, ?_, ?_, ?_, h.queueNodup, h.queueTasks, h.fresh, ?_,
      h.jobsNodup wid w hw⟩
    · intro wid0 w0 hw0 j hj
      obtain ⟨hne, hw0'⟩ := getW_removeW_some hw0
      exact h.heldInProgress wid0 w0 hw0' j hj
    · intro j u wid0 hu hua hjL
      obtain ⟨w0, hw0, hmem⟩ := h.assignedHeld j u wid0 hu hua
      have hne : wid0 ≠ wid := by
        intro hc
        rw [hc, hw] at hw0
        cases hw0
        exact hjL hmem
      exact ⟨w0, by dsimp only; rw [getW_removeW_other _ hne]; exact hw0, hmem⟩
    · intro wid0 w0 hw0
      obtain ⟨hne, hw0'⟩ := getW_removeW_some hw0
      exact h.jobsCount wid0 w0 hw0'
    · intro wid0 w0 hw0
      obtain ⟨hne, hw0'⟩ := getW_removeW_some hw0
      exact h.jobsNodup wid0 w0 hw0'
    · intro j hj
      obtain ⟨t, ht, hst, hta⟩ := h.heldInProgress wid w hw j hj
      refine ⟨t, ht, hst, h.notInQueue ht hst, ?_⟩
      intro wid0 w0 hw0 hmem0
      obtain ⟨hne, hw0'⟩ := getW_removeW_some hw0
      obtain ⟨u, hu, _, hua⟩ := h.heldInProgress wid0 w0 hw0' j hmem0
      rw [ht] at hu
      cases hu
      rw [hta] at hua
      cases hua
      exact hne rfl

/-- Folding `evictWorker` over any id list preserves the invariant. -/
theorem foldl_evict_inv (mr : Nat) : ∀ (L : List WorkerId) (s : DState), Inv s →
    Inv (L.foldl (fun a wid => evictWorker a mr wid) s) := by
  intro L
  induction L with
  | nil => intro s h; exact h
  | cons wid rest ih => intro s h; exact ih _ (evictWorker_inv h mr wid)

/-- `evictStale` preserves the invariant. -/
theorem evictStale_inv {s : DState} (h : Inv s) (timeout mr : Nat) :
    Inv (evictStale s timeout mr) :=
  foldl_evict_inv mr _ s h

/-- Every operation preserves the invariant. -/
theorem inv_step {s : DState} (h : Inv s) (op : Op) : Inv (step op s) := by
  cases op with
  | submit e inp => exact submit_inv h e inp
  | heartbeat wid e conc => exact heartbeat_inv h wid e conc
  | take e wid n => exact take_inv h e wid n
  | cancelOp id => exact cancel_inv h id
  | report id wid oc => exact report_inv h id wid oc
  | evict t mr => exact evictStale_inv h t mr
  | tick d => exact tick_inv h d

/-- Every reachable state satisfies the invariant. -/
theorem inv_reachable {s : DState} (h : Reachable s) : Inv s := by
  induction h with
  | init => exact Inv.init_inv
  | step op _ ih => exact inv_step ih op

/-- Running operations from a reachable state stays reachable. -/
theorem reachable_runFrom {s : DState} (h : Reachable s) :
    ∀ ops : List Op, Reachable (runFrom s ops) := by
  intro ops
  induction ops generalizing s with
  | nil => exact h
  | cons op rest ih => exact ih (Reachable.step op h)

/-- Every state produced by `run` is reachable. -/
theorem reachable_run (ops : List Op) : Reachable (run ops) :=
  reachable_runFrom Reachable.init ops

/-! ## Task status evolution along operations. -/

/-- The transition edges of the spec section 4.1 state machine, together with
staying put. -/
def edgeOK (a b : Status) : Prop :=
  a = b ∨
  (a = .pending ∧ b = .inProgress) ∨ (a = .pending ∧ b = .cancelled) ∨
  (a = .inProgress ∧ b = .completed) ∨ (a = .inProgress ∧ b = .failed) ∨
  (a = .inProgress ∧ b = .cancelled) ∨ (a = .inProgress ∧ b = .pending)

theorem heartbeat_tasks (s : DState) (wid : WorkerId) (e : Endpoint) (conc : Nat) :
    (registerOrHeartbeat s wid e conc).tasks = s.tasks := by
  unfold registerOrHeartbeat
  cases getW s.workers wid <;> rfl

theorem releaseSlot_tasks (s : DState) (wid : WorkerId) (id : TaskId) :
    (releaseSlot s wid id).tasks = s.tasks := by
  unfold releaseSlot
  cases getW s.workers wid with
  | none => rfl
  | some w =>
    by_cases hm : id ∈ w.jobsInProgress
    · simp [hm]
    · simp [hm]

theorem requeueTask_now (s : DState) (mr : Nat) (j : TaskId) :
    (requeueTask s mr j).now = s.now := by
  unfold requeueTask
  cases s.tasks j with
  | none => rfl
  | some u =>
    by_cases hs : u.status = .inProgress
    · by_cases hr : u.retries < mr
      · simp [hs, hr]
      · simp [hs, hr]
    · simp [hs]

theorem requeueAll_now (mr : Nat) : ∀ (L : List TaskId) (s : DState),
    (requeueAll s mr L).now = s.now := by
  intro L
  induction L with
  | nil => intro s; rfl
  | cons j rest ih => intro s; rw [requeueAll, ih, requeueTask_now]

theorem evictWorker_now (s : DState) (mr : Nat) (wid : WorkerId) :
    (evictWorker s mr wid).now = s.now := by
  unfold evictWorker
  cases getW s.workers wid with
  | none => rfl
  | some w => rw [requeueAll_now]

/-- How one task record can change across the requeue path: untouched, or (if
`IN_PROGRESS`) requeued or failed. -/
def ReqEvolved (now : Nat) (t t' : Task) : Prop :=
  t' = t ∨ (t.status = .inProgress ∧ (t' = requeuedTask t ∨ t' = failedTask t now))

theorem ReqEvolved.refl (now : Nat) (t : Task) : ReqEvolved now t t := Or.inl rfl

theorem ReqEvolved.trans {now : Nat} {t t1 t2 : Task} (h1 : ReqEvolved now t t1)
    (h2 : ReqEvolved now t1 t2) : ReqEvolved now t t2 := by
  rcases h1 with rfl | ⟨hs, h1⟩
  · exact h2
  · rcases h1 with rfl | rfl
    · rcases h2 with rfl | ⟨hs2, _⟩
      · exact Or.inr ⟨hs, Or.inl rfl⟩
      · simp [requeuedTask] at hs2
    · rcases h2 with rfl | ⟨hs2, _⟩
      · exact Or.inr ⟨hs, Or.inr rfl⟩
      · simp [failedTask] at hs2

theorem requeueTask_evolve (s : DState) (mr : Nat) (j id : TaskId) {t : Task}
    (ht : s.tasks id = some t) :
    ∃ t', (requeueTask s mr j).tasks id = some t' ∧ ReqEvolved s.now t t' := by
  cases htj : s.tasks j with
  | none =>
    rw [requeueTask_notFound mr htj]
    exact ⟨t, ht, ReqEvolved.refl _ _⟩
  | some u =>
    by_cases hs : u.status = .inProgress
    · by_cases hr : u.retries < mr
      · rw [requeueTask_requeue htj hs hr]
        by_cases hij : id = j
        · rw [hij] at ht
          rw [ht] at htj
          cases htj
          exact ⟨requeuedTask t, by dsimp only; rw [hij, updT_same],
            Or.inr ⟨hs, Or.inl rfl⟩⟩
        · exact ⟨t, (updT_other _ _ hij).trans ht, ReqEvolved.refl _ _⟩
      · rw [requeueTask_fail htj hs hr]
        by_cases hij : id = j
        · rw [hij] at ht
          rw [ht] at htj
          cases htj
          exact ⟨failedTask t s.now, by dsimp only; rw [hij, updT_same],
            Or.inr ⟨hs, Or.inr rfl⟩⟩
        · exact ⟨t, (updT_other _ _ hij).trans ht, ReqEvolved.refl _ _⟩
    · rw [requeueTask_skip mr htj hs]
      exact ⟨t, ht, ReqEvolved.refl _ _⟩

theorem requeueAll_evolve (mr : Nat) : ∀ (L : List TaskId) (s : DState) (id : TaskId)
    {t : Task}, s.tasks id = some t →
    ∃ t', (requeueAll s mr L).tasks id = some t' ∧ ReqEvolved s.now t t' := by
  intro L
  induction L with
  | nil => intro s id t ht; exact ⟨t, ht, ReqEvolved.refl _ _⟩
  | cons j rest ih =>
    intro s id t ht
    obtain ⟨t1, ht1, he1⟩ := requeueTask_evolve s mr j id ht
    obtain ⟨t2, ht2, he2⟩ := ih (requeueTask s mr j) id ht1
    rw [requeueTask_now] at he2
    exact ⟨t2, ht2, he1.trans he2⟩

theorem evictWorker_evolve (s : DState) (mr : Nat) (wid : WorkerId) (id : TaskId)
    {t : Task} (ht : s.tasks id = some t) :
    ∃ t', (evictWorker s mr wid).tasks id = some t' ∧ ReqEvolved s.now t t' := by
  unfold evictWorker
  cases getW s.workers wid with
  | none => exact ⟨t, ht, ReqEvolved.refl _ _⟩
  | some w => exact requeueAll_evolve mr w.jobsInProgress _ id ht

theorem foldl_evict_evolve (mr : Nat) : ∀ (L : List WorkerId) (s : DState)
    (id : TaskId) {t : Task}, s.tasks id = some t →
    ∃ t', ((L.foldl (fun a wid => evictWorker a mr wid) s)).tasks id = some t' ∧
      ReqEvolved s.now t t' := by
  intro L
  induction L with
  | nil => intro s id t ht; exact ⟨t, ht, ReqEvolved.refl _ _⟩
  | cons wid rest ih =>
    intro s id t ht
    obtain ⟨t1, ht1, he1⟩ := evictWorker_evolve s mr wid id ht
    obtain ⟨t2, ht2, he2⟩ := ih (evictWorker s mr wid) id ht1
    rw [evictWorker_now] at he2
    exact ⟨t2, ht2, he1.trans he2⟩

theorem evictStale_evolve (s : DState) (timeout mr : Nat) (id : TaskId) {t : Task}
    (ht : s.tasks id = some t) :
    ∃ t', (evictStale s timeout mr).tasks id = some t' ∧ ReqEvolved s.now t t' :=
  foldl_evict_evolve mr _ s id ht

/-- The central status-evolution lemma: across any single operation an
existing task keeps a record, the status moves only along section 4.1 edges,
and a terminal record does not change at all. -/
theorem step_task_evolution {s : DState} (h : Inv s) (op : Op) (id : TaskId)
    {t : Task} (ht : s.tasks id = some t) :
    ∃ t', (step op s).tasks id = some t' ∧ edgeOK t.status t'.status ∧
      (isTerminal t.status = true → t' = t) := by
  cases op with
  | submit e inp =>
    have hne : id ≠ s.nextId := fun hc =>
      absurd (h.id_lt_nextId ht) (by rw [hc]; exact Nat.lt_irrefl _)
    refine ⟨t, ?_, Or.inl rfl, fun _ => rfl⟩
    show (submit s e inp).2.tasks id = some t
    rw [submit_eq]
    exact (updT_other _ _ hne).trans ht
  | heartbeat wid e conc =>
    refine ⟨t, ?_, Or.inl rfl, fun _ => rfl⟩
    show (registerOrHeartbeat s wid e conc).tasks id = some t
    rw [heartbeat_tasks]
    exact ht
  | take e wid n =>
    show ∃ t', (takeNext s e wid n).2.tasks id = some t' ∧ _
    cases hw : getW s.workers wid with
    | none =>
      rw [takeNext_no_worker n hw]
      exact ⟨t, ht, Or.inl rfl, fun _ => rfl⟩
    | some w =>
      by_cases hc : w.concurrency ≤ w.currentJobs
      · rw [takeNext_full n hw hc]
        exact ⟨t, ht, Or.inl rfl, fun _ => rfl⟩
      · cases hscan : scanQueue s (s.queue e) with
        | mk res rest =>
          cases res with
          | none =>
            rw [takeNext_exhausted n hw hc hscan]
            exact ⟨t, ht, Or.inl rfl, fun _ => rfl⟩
          | some p =>
            obtain ⟨j, u⟩ := p
            rw [takeNext_success n hw hc hscan]
            obtain ⟨pre, hsplit, hpre, hu, hus⟩ := scanQueue_some s _ j u rest hscan
            by_cases hij : id = j
            · rw [hij] at ht
              rw [ht] at hu
              cases hu
              refine ⟨_, by dsimp only; rw [hij, updT_same], ?_, ?_⟩
              · exact Or.inr (Or.inl ⟨hus, rfl⟩)
              · intro hterm
                rw [hus] at hterm
                simp [isTerminal] at hterm
            · exact ⟨t, (updT_other _ _ hij).trans ht, Or.inl rfl, fun _ => rfl⟩
  | cancelOp j =>
    show ∃ t', (cancel s j).2.tasks id = some t' ∧ _
    cases htj : s.tasks j with
    | none =>
      rw [cancel_notFound htj]
      exact ⟨t, ht, Or.inl rfl, fun _ => rfl⟩
    | some u =>
      cases hstat : u.status with
      | pending =>
        rw [cancel_pending htj hstat]
        by_cases hij : id = j
        · rw [hij] at ht
          rw [ht] at htj
          cases htj
          refine ⟨_, by dsimp only; rw [hij, updT_same], ?_, ?_⟩
          · exact Or.inr (Or.inr (Or.inl ⟨hstat, rfl⟩))
          · intro hterm
            rw [hstat] at hterm
            simp [isTerminal] at hterm
        · exact ⟨t, (updT_other _ _ hij).trans ht, Or.inl rfl, fun _ => rfl⟩
      | inProgress =>
        have hsome : u.assignedWorker.isSome := (h.assignedIff j u htj).mpr hstat
        cases ha : u.assignedWorker with
        | none => rw [ha] at hsome; cases hsome
        | some wid =>
          rw [cancel_inProgress htj hstat ha]
          rw [show ((some Status.cancelled : Option Status),
              releaseSlot { s with tasks := updT s.tasks j (cancelledTask u s.now) } wid j).2
              = releaseSlot { s with tasks := updT s.tasks j (cancelledTask u s.now) } wid j
              from rfl]
          rw [releaseSlot_tasks]
          by_cases hij : id = j
          · rw [hij] at ht
            rw [ht] at htj
            cases htj
            refine ⟨_, by dsimp only; rw [hij, updT_same], ?_, ?_⟩
            · exact Or.inr (Or.inr (Or.inr (Or.inr (Or.inr (Or.inl ⟨hstat, rfl⟩)))))
            · intro hterm
              rw [hstat] at hterm
              simp [isTerminal] at hterm
          · exact ⟨t, (updT_other _ _ hij).trans ht, Or.inl rfl, fun _ => rfl⟩
      | completed =>
        rw [cancel_terminal htj (by rw [hstat]; rfl)]
        exact ⟨t, ht, Or.inl rfl, fun _ => rfl⟩
      | failed =>
        rw [cancel_terminal htj (by rw [hstat]; rfl)]
        exact ⟨t, ht, Or.inl rfl, fun _ => rfl⟩
      | cancelled =>
        rw [cancel_terminal htj (by rw [hstat]; rfl)]
        exact ⟨t, ht, Or.inl rfl, fun _ => rfl⟩
  | report j wid oc =>
    show ∃ t', (applyResult s j wid oc).2.tasks id = some t' ∧ _
    cases htj : s.tasks j with
    | none =>
      rw [applyResult_notFound wid oc htj]
      exact ⟨t, ht, Or.inl rfl, fun _ => rfl⟩
    | some u =>
      by_cases hcond : u.status = .inProgress ∧ u.assignedWorker = some wid
      · rw [applyResult_ok oc htj hcond.1 hcond.2]
        rw [show ((ApplyRes.ok : ApplyRes),
            releaseSlot { s with tasks := updT s.tasks j (finishTask u oc s.now) } wid j).2
            = releaseSlot { s with tasks := updT s.tasks j (finishTask u oc s.now) } wid j
            from rfl]
        rw [releaseSlot_tasks]
        by_cases hij : id = j
        · rw [hij] at ht
          rw [ht] at htj
          cases htj
          refine ⟨_, by dsimp only; rw [hij, updT_same], ?_, ?_⟩
          · cases oc with
            | success out =>
              exact Or.inr (Or.inr (Or.inr (Or.inl ⟨hcond.1, rfl⟩)))
            | failure err =>
              exact Or.inr (Or.inr (Or.inr (Or.inr (Or.inl ⟨hcond.1, rfl⟩))))
          · intro hterm
            rw [hcond.1] at hterm
            simp [isTerminal] at hterm
        · exact ⟨t, (updT_other _ _ hij).trans ht, Or.inl rfl, fun _ => rfl⟩
      · rw [applyResult_conflict wid oc htj hcond]
        exact ⟨t, ht, Or.inl rfl, fun _ => rfl⟩
  | evict timeout mr =>
    obtain ⟨t', ht', he⟩ := evictStale_evolve s timeout mr id ht
    refine ⟨t', ht', ?_, ?_⟩
    · rcases he with rfl | ⟨hs, hcase⟩
      · exact Or.inl rfl
      · rcases hcase with rfl | rfl
        · exact Or.inr (Or.inr (Or.inr (Or.inr (Or.inr (Or.inr ⟨hs, rfl⟩)))))
        · exact Or.inr (Or.inr (Or.inr (Or.inr (Or.inl ⟨hs, rfl⟩))))
    · intro hterm
      rcases he with rfl | ⟨hs, _⟩
      · rfl
      · rw [hs] at hterm
        simp [isTerminal] at hterm
  | tick d =>
    exact ⟨t, ht, Or.inl rfl, fun _ => rfl⟩

/-! ## Claim theorems. -/

/-- An example trace: submit one task to endpoint `e`, then cancel it. -/
def exOps1 : List Op := [Op.submit "e" PyVal.none, Op.cancelOp 0]

/-- The state reached by `exOps1`. -/
abbrev exS1 : DState := run exOps1

/-- The record of task 0 in `exS1`: cancelled before any assignment. -/
def exT1 : Task :=
  { endpoint := "e", input := PyVal.none, output := Option.none,
    status := .cancelled, error := Option.none, createdAt := some 0,
    startedAt := Option.none, completedAt := some 0,
    assignedWorker := Option.none, retries := 0 }

/-- C1: in every invariant-satisfying (hence every reachable) state, any
operation moves a task's status only along the section 4.1 edges
(`PENDING→IN_PROGRESS`, `PENDING→CANCELLED`, `IN_PROGRESS→COMPLETED`,
`IN_PROGRESS→FAILED`, `IN_PROGRESS→CANCELLED`, `IN_PROGRESS→PENDING`) or
leaves it unchanged; once a task is `COMPLETED`, `FAILED` or `CANCELLED` no
operation changes its record at all; and a late worker report on such a task
is silently ignored (`Conflict`, state unchanged). -/
theorem status_transitions_sound :
    (∀ op s, Inv s → ∀ id t t', s.tasks id = some t →
      (step op s).tasks id = some t' → edgeOK t.status t'.status) ∧
    (∀ op s, Inv s → ∀ id t, s.tasks id = some t → isTerminal t.status = true →
      (step op s).tasks id = some t) ∧
    (∀ s id t wid oc, s.tasks id = some t → isTerminal t.status = true →
      applyResult s id wid oc = (ApplyRes.conflict, s)) := by
  refine ⟨?_, ?_, ?_⟩
  · intro op s h id t t' ht ht'
    obtain ⟨t'', ht'', he, _⟩ := step_task_evolution h op id ht
    rw [ht''] at ht'
    cases ht'
    exact he
  · intro op s h id t ht hterm
    obtain ⟨t'', ht'', _, hfix⟩ := step_task_evolution h op id ht
    rw [hfix hterm] at ht''
    exact ht''
  · intro s id t wid oc ht hterm
    refine applyResult_conflict wid oc ht ?_
    intro hcc
    rw [hcc.1] at hterm
    simp [isTerminal] at hterm

/-- Witness for C1 at a concrete cancelled task. -/
theorem status_transitions_sound_witness :
    exS1.tasks 0 = some exT1 ∧ isTerminal exT1.status = true ∧
    (step (Op.tick 1) exS1).tasks 0 = some exT1 ∧
    edgeOK exT1.status exT1.status ∧
    applyResult exS1 0 "w" (Outcome.failure "boom") = (ApplyRes.conflict, exS1) := by
  have h1 : exS1.tasks 0 = some exT1 := rfl
  have hterm : isTerminal exT1.status = true := rfl
  have hinv : Inv exS1 := inv_reachable (reachable_run exOps1)
  have h2 := status_transitions_sound.2.1 (Op.tick 1) exS1 hinv 0 exT1 h1 hterm
  have h3 := status_transitions_sound.1 (Op.tick 1) exS1 hinv 0 exT1 exT1 h1 h2
  have h4 := status_transitions_sound.2.2 exS1 0 exT1 "w" (Outcome.failure "boom") h1 hterm
  exact ⟨h1, hterm, h2, h3, h4⟩

/-- An example trace: a worker heartbeats, one task is submitted. -/
def exOps2a : List Op := [Op.heartbeat "w1" "e" 1, Op.submit "e" PyVal.none]

/-- `exOps2a` followed by the worker taking the task. -/
def exOps2s : List Op := exOps2a ++ [Op.take "e" "w1" 1]

/-- `exOps2s` followed by time passing, the eviction sweep (timeout 10,
retry bound 3) and a second worker heartbeating. -/
def exOps2b : List Op :=
  exOps2s ++ [Op.tick 100, Op.evict 10 3, Op.heartbeat "w2" "e" 1]

/-- The record of task 0 right after `w1` claims it. -/
def exT2 : Task :=
  { endpoint := "e", input := PyVal.none, output := Option.none,
    status := .inProgress, error := Option.none, createdAt := some 0,
    startedAt := some 0, completedAt := Option.none,
    assignedWorker := some "w1", retries := 0 }

/-- C2 counterexample: two `takeNext` calls in one execution return the same
task id.  In the trace `exOps2b` the call `takeNext _ "e" "w1" 1` (whose
state update is the `Op.take` step of the trace) returns task 0, the worker
is then evicted and the task requeued, and a later `takeNext _ "e" "w2" 1`
returns task 0 again — refuting the claim that no two `takeNext` calls ever
return the same task id. -/
theorem take_unique_counterexample :
    (takeNext (run exOps2a) "e" "w1" 1).1.map (fun p => p.1) = some 0 ∧
    (takeNext (run exOps2b) "e" "w2" 1).1.map (fun p => p.1) = some 0 := by
  exact ⟨rfl, rfl⟩

/-- C2 (amended): at every reachable state each task is held by at most one
worker and `assigned_worker` is set iff the task is `IN_PROGRESS`; and
`takeNext` returns only a task that was `PENDING` immediately before the call
and is `IN_PROGRESS` under the calling worker afterwards — so two `takeNext`
calls can return the same task id only if an eviction requeued the task to
`PENDING` in between. -/
theorem task_single_holder :
    (∀ s, Reachable s →
      (∀ id t, s.tasks id = some t →
        (t.assignedWorker.isSome ↔ t.status = .inProgress)) ∧
      (∀ wid1 wid2 w1 w2 id, getW s.workers wid1 = some w1 →
        getW s.workers wid2 = some w2 → id ∈ w1.jobsInProgress →
        id ∈ w2.jobsInProgress → wid1 = wid2)) ∧
    (∀ s e wid n id t', Inv s → (takeNext s e wid n).1 = some (id, t') →
      (∃ t, s.tasks id = some t ∧ t.status = .pending) ∧
      t'.status = .inProgress ∧ t'.assignedWorker = some wid ∧
      (takeNext s e wid n).2.tasks id = some t') := by
  constructor
  · intro s hs
    have h := inv_reachable hs
    refine ⟨h.assignedIff, ?_⟩
    intro wid1 wid2 w1 w2 id hw1 hw2 hm1 hm2
    obtain ⟨t1, ht1, _, ha1⟩ := h.heldInProgress wid1 w1 hw1 id hm1
    obtain ⟨t2, ht2, _, ha2⟩ := h.heldInProgress wid2 w2 hw2 id hm2
    rw [ht1] at ht2
    cases ht2
    rw [ha1] at ha2
    exact Option.some.inj ha2
  · intro s e wid n id t' hinv hres
    cases hw : getW s.workers wid with
    | none =>
      rw [takeNext_no_worker n hw] at hres
      cases hres
    | some w =>
      by_cases hc : w.concurrency ≤ w.currentJobs
      · rw [takeNext_full n hw hc] at hres
        cases hres
      · cases hscan : scanQueue s (s.queue e) with
        | mk res rest =>
          cases res with
          | none =>
            rw [takeNext_exhausted n hw hc hscan] at hres
            cases hres
          | some p =>
            obtain ⟨j, u⟩ := p
            rw [takeNext_success n hw hc hscan] at hres
            obtain ⟨hji, hut⟩ :=
              Prod.mk.injEq _ _ _ _ ▸ (Option.some.inj hres)
            obtain ⟨pre, hsplit, hpre, hu, hus⟩ := scanQueue_some s _ j u rest hscan
            refine ⟨⟨u, by rw [← hji]; exact hu, hus⟩, ?_, ?_, ?_⟩
            · rw [← hut]
            · rw [← hut]
            · rw [takeNext_success n hw hc hscan, ← hut, ← hji]
              exact updT_same _ _ _

/-- Witness for the amended C2 at the concrete trace `exOps2s`. -/
theorem task_single_holder_witness :
    (exT2.assignedWorker.isSome ↔ exT2.status = .inProgress) ∧
    (∃ t, (run exOps2a).tasks 0 = some t ∧ t.status = .pending) ∧
    exT2.status = .inProgress ∧ exT2.assignedWorker = some "w1" ∧
    (takeNext (run exOps2a) "e" "w1" 1).2.tasks 0 = some exT2 := by
  have h1 := (task_single_holder.1 (run exOps2s) (reachable_run exOps2s)).1 0 exT2 rfl
  have hinv : Inv (run exOps2a) := inv_reachable (reachable_run exOps2a)
  have h2 := task_single_holder.2 (run exOps2a) "e" "w1" 1 0 exT2 hinv rfl
  exact ⟨h1, h2.1, h2.2.1, h2.2.2.1, h2.2.2.2⟩

/-- An example trace: a worker with concurrency 1 takes the only task, then
heartbeats again declaring concurrency 0. -/
def exOps3 : List Op :=
  [Op.heartbeat "w" "e" 1, Op.submit "e" PyVal.none, Op.take "e" "w" 1,
   Op.heartbeat "w" "e" 0]

/-- Every registered worker is within its declared concurrency. -/
def WorkersBound (s : DState) : Prop :=
  ∀ wid w, getW s.workers wid = some w → w.currentJobs ≤ w.concurrency

/-- The one operation that can break `current_jobs ≤ concurrency`: a
heartbeat that lowers the declared concurrency below the current load.
`ConcSafe` rules it out. -/
def ConcSafe (s : DState) : Op → Prop
  | .heartbeat wid _ conc => ∀ w, getW s.workers wid = some w → w.currentJobs ≤ conc
  | _ => True

theorem requeueTask_workers (s : DState) (mr : Nat) (j : TaskId) :
    (requeueTask s mr j).workers = s.workers := by
  unfold requeueTask
  cases s.tasks j with
  | none => rfl
  | some u =>
    by_cases hs : u.status = .inProgress
    · by_cases hr : u.retries < mr
      · simp [hs, hr]
      · simp [hs, hr]
    · simp [hs]

theorem requeueAll_workers (mr : Nat) : ∀ (L : List TaskId) (s : DState),
    (requeueAll s mr L).workers = s.workers := by
  intro L
  induction L with
  | nil => intro s; rfl
  | cons j rest ih => intro s; rw [requeueAll, ih, requeueTask_workers]

theorem releaseSlot_bound {s : DState} (h : WorkersBound s) (wid : WorkerId)
    (id : TaskId) : WorkersBound (releaseSlot s wid id) := by
  unfold releaseSlot
  cases hw : getW s.workers wid with
  | none => exact h
  | some w =>
    by_cases hm : id ∈ w.jobsInProgress
    · simp only [hm, if_true]
      intro wid0 w0 hw0
      dsimp only at hw0
      by_cases hww : wid0 = wid
      · rw [hww, getW_setW_same] at hw0
        cases hw0
        exact Nat.le_trans (Nat.sub_le _ _) (h wid w hw)
      · rw [getW_setW_other _ _ hww] at hw0
        exact h wid0 w0 hw0
    · simp only [hm, if_false]
      exact h

theorem evictWorker_bound {s : DState} (h : WorkersBound s) (mr : Nat)
    (wid : WorkerId) : WorkersBound (evictWorker s mr wid) := by
  unfold evictWorker
  cases hw : getW s.workers wid with
  | none => exact h
  | some w =>
    intro wid0 w0 hw0
    rw [requeueAll_workers] at hw0
    dsimp only at hw0
    obtain ⟨_, hw0'⟩ := getW_removeW_some hw0
    exact h wid0 w0 hw0'

theorem foldl_evict_bound (mr : Nat) : ∀ (L : List WorkerId) (s : DState),
    WorkersBound s →
    WorkersBound (L.foldl (fun a wid => evictWorker a mr wid) s) := by
  intro L
  induction L with
  | nil => intro s h; exact h
  | cons wid rest ih => intro s h; exact ih _ (evictWorker_bound h mr wid)

/-- The single registered worker of `exOps2s`, holding task 0. -/
def exW1 : Worker :=
  { endpoint := "e", concurrency := 1, currentJobs := 1,
    jobsInProgress := [0], lastHeartbeat := 0 }

/-- C3 counterexample: along the reachable trace `exOps3` (the worker
dynamically lowers its declared concurrency to 0 while holding one task) the
worker record has `current_jobs = 1 > 0 = concurrency`, refuting
`0 ≤ current_jobs ≤ concurrency` at every reachable state. -/
theorem worker_capacity_counterexample :
    Reachable (run exOps3) ∧
    (getW (run exOps3).workers "w").map (fun w => (w.currentJobs, w.concurrency)) =
      some (1, 0) := by
  exact ⟨reachable_run exOps3, rfl⟩

/-- C3 (amended): at every reachable state every worker record satisfies
`current_jobs = |jobs_in_progress|` (and hence `0 ≤ current_jobs`); and every
operation preserves `current_jobs ≤ concurrency` except a heartbeat that
lowers the worker's declared concurrency below its current load (which the
spec's dynamically-adjustable concurrency permits). -/
theorem worker_load_invariant :
    (∀ s, Reachable s → ∀ wid w, getW s.workers wid = some w →
      w.currentJobs = w.jobsInProgress.length) ∧
    (∀ op s, WorkersBound s → ConcSafe s op → WorkersBound (step op s)) := by
  constructor
  · intro s hs wid w hw
    exact (inv_reachable hs).jobsCount wid w hw
  · intro op s hb hsafe
    cases op with
    | submit e inp =>
      intro wid w hw
      have hweq : (step (Op.submit e inp) s).workers = s.workers := by
        show (submit s e inp).2.workers = s.workers
        rw [submit_eq]
      rw [hweq] at hw
      exact hb wid w hw
    | heartbeat wid e conc =>
      show WorkersBound (registerOrHeartbeat s wid e conc)
      unfold registerOrHeartbeat
      cases hw : getW s.workers wid with
      | some w =>
        intro wid0 w0 hw0
        dsimp only at hw0
        by_cases hww : wid0 = wid
        · rw [hww, getW_setW_same] at hw0
          cases hw0
          exact hsafe w hw
        · rw [getW_setW_other _ _ hww] at hw0
          exact hb wid0 w0 hw0
      | none =>
        intro wid0 w0 hw0
        dsimp only at hw0
        by_cases hww : wid0 = wid
        · rw [hww, getW_setW_same] at hw0
          cases hw0
          exact Nat.zero_le _
        · rw [getW_setW_other _ _ hww] at hw0
          exact hb wid0 w0 hw0
    | take e wid n =>
      show WorkersBound (takeNext s e wid n).2
      cases hw : getW s.workers wid with
      | none =>
        rw [takeNext_no_worker n hw]
        exact hb
      | some w =>
        by_cases hc : w.concurrency ≤ w.currentJobs
        · rw [takeNext_full n hw hc]
          exact hb
        · cases hscan : scanQueue s (s.queue e) with
          | mk res rest =>
            cases res with
            | none =>
              rw [takeNext_exhausted n hw hc hscan]
              exact hb
            | some p =>
              obtain ⟨j, u⟩ := p
              rw [takeNext_success n hw hc hscan]
              intro wid0 w0 hw0
              dsimp only at hw0
              by_cases hww : wid0 = wid
              · rw [hww, getW_setW_same] at hw0
                cases hw0
                exact Nat.succ_le_of_lt (Nat.lt_of_not_le hc)
              · rw [getW_setW_other _ _ hww] at hw0
                exact hb wid0 w0 hw0
    | cancelOp j =>
      show WorkersBound (cancel s j).2
      cases ht : s.tasks j with
      | none =>
        rw [cancel_notFound ht]
        exact hb
      | some u =>
        cases hstat : u.status with
        | pending =>
          rw [cancel_pending ht hstat]
          exact hb
        | inProgress =>
          cases ha : u.assignedWorker with
          | none =>
            unfold cancel
            rw [ht]
            simp only [hstat, ha]
            exact hb
          | some wid =>
            rw [cancel_inProgress ht hstat ha]
            have hb' : WorkersBound
                ({ s with tasks := updT s.tasks j (cancelledTask u s.now) } : DState) := hb
            exact releaseSlot_bound hb' wid j
        | completed =>
          rw [cancel_terminal ht (by rw [hstat]; rfl)]
          exact hb
        | failed =>
          rw [cancel_terminal ht (by rw [hstat]; rfl)]
          exact hb
        | cancelled =>
          rw [cancel_terminal ht (by rw [hstat]; rfl)]
          exact hb
    | report j wid oc =>
      show WorkersBound (applyResult s j wid oc).2
      cases ht : s.tasks j with
      | none =>
        rw [applyResult_notFound wid oc ht]
        exact hb
      | some u =>
        by_cases hcond : u.status = .inProgress ∧ u.assignedWorker = some wid
        · rw [applyResult_ok oc ht hcond.1 hcond.2]
          have hb' : WorkersBound
              ({ s with tasks := updT s.tasks j (finishTask u oc s.now) } : DState) := hb
          exact releaseSlot_bound hb' wid j
        · rw [applyResult_conflict wid oc ht hcond]
          exact hb
    | evict timeout mr =>
      show WorkersBound (evictStale s timeout mr)
      unfold evictStale
      exact foldl_evict_bound mr _ s hb
    | tick d =>
      exact hb

/-- Witness for the amended C3: the load invariant at the concrete trace
`exOps2s`, and bound preservation across a tick. -/
theorem worker_load_invariant_witness :
    (getW (run exOps2s).workers "w1" = some exW1 ∧
      exW1.currentJobs = exW1.jobsInProgress.length) ∧
    WorkersBound (step (Op.tick 1) (run exOps2s)) := by
  constructor
  · exact ⟨rfl, worker_load_invariant.1 (run exOps2s) (reachable_run exOps2s) "w1" exW1 rfl⟩
  · refine worker_load_invariant.2 (Op.tick 1) (run exOps2s) ?_ trivial
    intro wid w hw
    have hlist : (run exOps2s).workers = [("w1", exW1)] := rfl
    rw [hlist] at hw
    simp only [getW] at hw
    by_cases hww : ("w1" : WorkerId) = wid
    · rw [if_pos hww] at hw
      cases hw
      decide
    · rw [if_neg hww] at hw
      cases hw

/-- C4: `takeNext(endpoint, workerId, availableSlots)` returns Empty without
dequeuing when the worker's available capacity (`concurrency - current_jobs`)
is not positive or the endpoint queue is empty; it discards non-`PENDING`
entries popped from the queue and retries with the next entry (the returned
task is the first still-`PENDING` entry, every discarded entry before it is
not pending); and on success the task is `IN_PROGRESS` with
`assigned_worker = workerId` and `started_at` set, the worker's
`current_jobs` is incremented and the id added to `jobs_in_progress`, and the
id is no longer in the queue. -/
theorem takeNext_correct (s : DState) (e : Endpoint) (wid : WorkerId) (n : Nat)
    (hinv : Inv s) :
    (∀ w, getW s.workers wid = some w → w.concurrency ≤ w.currentJobs →
      takeNext s e wid n = (Option.none, s)) ∧
    (s.queue e = [] → (takeNext s e wid n).1 = Option.none ∧
      (takeNext s e wid n).2.tasks = s.tasks ∧
      (takeNext s e wid n).2.workers = s.workers ∧
      ∀ x, (takeNext s e wid n).2.queue x = s.queue x) ∧
    (∀ id t', (takeNext s e wid n).1 = some (id, t') →
      ∃ pre rest t w, s.queue e = pre ++ id :: rest ∧
        (∀ j ∈ pre, ¬ IsPending s j) ∧
        s.tasks id = some t ∧ t.status = .pending ∧
        t' = { t with status := .inProgress, assignedWorker := some wid, startedAt := some s.now } ∧
        (takeNext s e wid n).2.tasks id = some t' ∧
        getW s.workers wid = some w ∧
        getW (takeNext s e wid n).2.workers wid =
          some { w with currentJobs := w.currentJobs + 1, jobsInProgress := id :: w.jobsInProgress } ∧
        id ∉ (takeNext s e wid n).2.queue e ∧
        (takeNext s e wid n).2.queue e = rest ∧
        (∀ x, x ≠ e → (takeNext s e wid n).2.queue x = s.queue x)) := by
  refine ⟨?_, ?_, ?_⟩
  · intro w hw hc
    exact takeNext_full n hw hc
  · intro hq
    cases hw : getW s.workers wid with
    | none =>
      rw [takeNext_no_worker n hw]
      exact ⟨rfl, rfl, rfl, fun x => rfl⟩
    | some w =>
      by_cases hc : w.concurrency ≤ w.currentJobs
      · rw [takeNext_full n hw hc]
        exact ⟨rfl, rfl, rfl, fun x => rfl⟩
      · have hscan : scanQueue s (s.queue e) = (Option.none, []) := by
          rw [hq]
          rfl
        rw [takeNext_exhausted n hw hc hscan]
        refine ⟨rfl, rfl, rfl, ?_⟩
        intro x
        dsimp only
        by_cases hx : x = e
        · rw [hx, setQ_same, hq]
        · rw [setQ_other _ _ hx]
  · intro id t' hres
    cases hw : getW s.workers wid with
    | none =>
      rw [takeNext_no_worker n hw] at hres
      cases hres
    | some w =>
      by_cases hc : w.concurrency ≤ w.currentJobs
      · rw [takeNext_full n hw hc] at hres
        cases hres
      · cases hscan : scanQueue s (s.queue e) with
        | mk res rest =>
          cases res with
          | none =>
            rw [takeNext_exhausted n hw hc hscan] at hres
            cases hres
          | some p =>
            obtain ⟨j, u⟩ := p
            rw [takeNext_success n hw hc hscan] at hres
            obtain ⟨hji, hut⟩ :=
              Prod.mk.injEq _ _ _ _ ▸ (Option.some.inj hres)
            obtain ⟨pre, hsplit, hpre, hu, hus⟩ := scanQueue_some s _ j u rest hscan
            have hidrest : j ∉ rest := by
              have hqnd := hinv.queueNodup e
              rw [hsplit] at hqnd
              exact (List.nodup_cons.mp (List.nodup_append.mp hqnd).2.1).1
            rw [takeNext_success n hw hc hscan]
            refine ⟨pre, rest, u, w, by rw [← hji]; exact hsplit, hpre,
              by rw [← hji]; exact hu, hus, ?_, ?_, rfl, ?_, ?_, ?_, ?_⟩
            · rw [← hut]
            · dsimp only
              rw [← hut, ← hji]
              exact updT_same _ _ _
            · dsimp only
              rw [← hji]
              exact getW_setW_same _ _ _
            · dsimp only
              rw [setQ_same, ← hji]
              exact hidrest
            · dsimp only
              rw [setQ_same]
            · intro x hx
              dsimp only
              rw [setQ_other _ _ hx]

/-- Witness for C4: capacity refusal at `exOps2s` (worker full), empty-queue
refusal at the initial state, and the successful claim of task 0 at
`exOps2a`. -/
theorem takeNext_correct_witness :
    takeNext (run exOps2s) "e" "w1" 1 = (Option.none, run exOps2s) ∧
    (takeNext init "e" "w1" 1).1 = Option.none ∧
    (∃ pre rest t w, (run exOps2a).queue "e" = pre ++ 0 :: rest ∧
      (∀ j ∈ pre, ¬ IsPending (run exOps2a) j) ∧
      (run exOps2a).tasks 0 = some t ∧ t.status = .pending ∧
      exT2 = { t with status := .inProgress, assignedWorker := some "w1", startedAt := some (run exOps2a).now } ∧
      (takeNext (run exOps2a) "e" "w1" 1).2.tasks 0 = some exT2 ∧
      getW (run exOps2a).workers "w1" = some w ∧
      getW (takeNext (run exOps2a) "e" "w1" 1).2.workers "w1" =
        some { w with currentJobs := w.currentJobs + 1, jobsInProgress := 0 :: w.jobsInProgress } ∧
      0 ∉ (takeNext (run exOps2a) "e" "w1" 1).2.queue "e" ∧
      (takeNext (run exOps2a) "e" "w1" 1).2.queue "e" = rest ∧
      (∀ x, x ≠ "e" →
        (takeNext (run exOps2a) "e" "w1" 1).2.queue x = (run exOps2a).queue x)) := by
  refine ⟨?_, ?_, ?_⟩
  · exact (takeNext_correct (run exOps2s) "e" "w1" 1
      (inv_reachable (reachable_run exOps2s))).1 exW1 rfl (by decide)
  · exact ((takeNext_correct init "e" "w1" 1 Inv.init_inv).2.1 rfl).1
  · exact (takeNext_correct (run exOps2a) "e" "w1" 1
      (inv_reachable (reachable_run exOps2a))).2.2 0 exT2 rfl

/-- Unfolding equation for `cancel` on an `IN_PROGRESS` task with no recorded
holder (unreachable under the invariant, but total code must cover it). -/
theorem cancel_inProgress_noWorker {s : DState} {id : TaskId} {t : Task}
    (ht : s.tasks id = some t) (hst : t.status = .inProgress)
    (ha : t.assignedWorker = Option.none) :
    cancel s id =
      (some .cancelled, { s with tasks := updT s.tasks id (cancelledTask t s.now) }) := by
  unfold cancel
  rw [ht]
  simp only [hst, ha]

/-- A task whose record is terminal keeps exactly that record under any
further operations. -/
theorem terminal_frozen {s : DState} (h : Inv s) {id : TaskId} {t : Task}
    (ht : s.tasks id = some t) (hterm : isTerminal t.status = true) :
    ∀ ops : List Op, (runFrom s ops).tasks id = some t := by
  intro ops
  induction ops generalizing s with
  | nil => exact ht
  | cons op rest ih =>
    obtain ⟨t', ht', _, hfix⟩ := step_task_evolution h op id ht
    rw [hfix hterm] at ht'
    exact ih (inv_step h op) ht'

/-- C5: `cancel` is idempotent — `cancel (cancel s id) id = cancel s id` in
full generality; cancelling an already-terminal task is a no-op returning the
existing status; and cancelling a `PENDING` task yields a `CANCELLED` record
with `assigned_worker` empty that no later operation ever changes, so no
worker is ever assigned that task afterwards. -/
theorem cancel_idempotent :
    (∀ s id, cancel (cancel s id).2 id = cancel s id) ∧
    (∀ s id t, s.tasks id = some t → isTerminal t.status = true →
      cancel s id = (some t.status, s)) ∧
    (∀ s id t, Inv s → s.tasks id = some t → t.status = .pending →
      ∃ t', (cancel s id).2.tasks id = some t' ∧ t'.status = .cancelled ∧
        t'.assignedWorker = Option.none ∧
        ∀ ops, (runFrom (cancel s id).2 ops).tasks id = some t') := by
  refine ⟨?_, ?_, ?_⟩
  · intro s id
    cases ht : s.tasks id with
    | none =>
      rw [cancel_notFound ht]
      show cancel s id = (Option.none, s)
      exact cancel_notFound ht
    | some t =>
      cases hstat : t.status with
      | pending =>
        rw [cancel_pending ht hstat]
        have ht' : ({ s with tasks := updT s.tasks id (cancelledTask t s.now) } : DState).tasks id
            = some (cancelledTask t s.now) := updT_same _ _ _
        exact cancel_terminal ht' rfl
      | inProgress =>
        cases ha : t.assignedWorker with
        | none =>
          rw [cancel_inProgress_noWorker ht hstat ha]
          have ht' : ({ s with tasks := updT s.tasks id (cancelledTask t s.now) } : DState).tasks id
              = some (cancelledTask t s.now) := updT_same _ _ _
          exact cancel_terminal ht' rfl
        | some wid =>
          rw [cancel_inProgress ht hstat ha]
          have ht' : (releaseSlot
              { s with tasks := updT s.tasks id (cancelledTask t s.now) } wid id).tasks id
              = some (cancelledTask t s.now) := by
            rw [releaseSlot_tasks]
            exact updT_same _ _ _
          exact cancel_terminal ht' rfl
      | completed =>
        rw [cancel_terminal ht (by rw [hstat]; rfl)]
        show cancel s id = _
        rw [cancel_terminal ht (by rw [hstat]; rfl)]
      | failed =>
        rw [cancel_terminal ht (by rw [hstat]; rfl)]
        show cancel s id = _
        rw [cancel_terminal ht (by rw [hstat]; rfl)]
      | cancelled =>
        rw [cancel_terminal ht (by rw [hstat]; rfl)]
        show cancel s id = _
        rw [cancel_terminal ht (by rw [hstat]; rfl)]
  · intro s id t ht hterm
    exact cancel_terminal ht hterm
  · intro s id t hinv ht hst
    rw [cancel_pending ht hst]
    have ht' : ({ s with tasks := updT s.tasks id (cancelledTask t s.now) } : DState).tasks id
        = some (cancelledTask t s.now) := updT_same _ _ _
    refine ⟨cancelledTask t s.now, ht', rfl, rfl, ?_⟩
    have hinv' : Inv ({ s with tasks := updT s.tasks id (cancelledTask t s.now) } : DState) := by
      have hpost := cancel_pending_inv hinv ht hst
      rw [cancel_pending ht hst] at hpost
      exact hpost
    exact terminal_frozen hinv' ht' rfl

/-- Witness for C5 at the concrete traces `exOps2a` (pending task) and
`exOps1` (terminal task). -/
theorem cancel_idempotent_witness :
    cancel (cancel (run exOps2a) 0).2 0 = cancel (run exOps2a) 0 ∧
    cancel exS1 0 = (some exT1.status, exS1) ∧
    (∃ t', (cancel (run exOps2a) 0).2.tasks 0 = some t' ∧ t'.status = .cancelled ∧
      t'.assignedWorker = Option.none ∧
      ∀ ops, (runFrom (cancel (run exOps2a) 0).2 ops).tasks 0 = some t') := by
  refine ⟨cancel_idempotent.1 (run exOps2a) 0, ?_, ?_⟩
  · exact cancel_idempotent.2.1 exS1 0 exT1 rfl rfl
  · exact cancel_idempotent.2.2 (run exOps2a) 0 _
      (inv_reachable (reachable_run exOps2a)) rfl rfl

/-- A wait on a task whose record is already terminal returns at once with
that record, consuming no environment steps. -/
theorem waitLoop_terminal {s : DState} {id : TaskId} {t : Task}
    (ht : s.tasks id = some t) (hterm : isTerminal t.status = true)
    (d : Nat) (env : List Op) : waitLoop id d env s = ((some t, false), s) := by
  unfold waitLoop
  rw [ht]
  simp [hterm]

/-- C6: `applyResult`/`reportResult` returns `Conflict` exactly when the task
is terminal or `assigned_worker` differs from the reporting worker; on
`Conflict` the state (hence the task record) is unchanged, the report
discarded; otherwise it applies the terminal transition (`COMPLETED` with
output on success, `FAILED` with error on failure), releases the worker's
slot via `releaseSlot`, and any synchronous waiter on that task id now
returns immediately with the terminal snapshot. -/
theorem reportResult_correct (s : DState) (id : TaskId) (wid : WorkerId)
    (oc : Outcome) {t : Task} (hinv : Inv s) (ht : s.tasks id = some t) :
    ((isTerminal t.status = true ∨ t.assignedWorker ≠ some wid) ↔
      (applyResult s id wid oc).1 = .conflict) ∧
    ((applyResult s id wid oc).1 = .conflict → (applyResult s id wid oc).2 = s) ∧
    ((applyResult s id wid oc).1 = .ok →
      t.status = .inProgress ∧ t.assignedWorker = some wid ∧
      ∃ t' w, (applyResult s id wid oc).2.tasks id = some t' ∧
        t' = finishTask t oc s.now ∧ isTerminal t'.status = true ∧
        (∀ out, oc = .success out → t'.status = .completed ∧ t'.output = some out) ∧
        (∀ err, oc = .failure err → t'.status = .failed ∧ t'.error = some err) ∧
        getW s.workers wid = some w ∧
        getW (applyResult s id wid oc).2.workers wid = some (releasedWorker w id) ∧
        id ∉ (releasedWorker w id).jobsInProgress ∧
        (releasedWorker w id).currentJobs = w.currentJobs - 1 ∧
        ∀ d env, waitLoop id d env (applyResult s id wid oc).2 =
          ((some t', false), (applyResult s id wid oc).2)) := by
  by_cases hcond : t.status = .inProgress ∧ t.assignedWorker = some wid
  · have heq := applyResult_ok oc ht hcond.1 hcond.2
    obtain ⟨w, hw, hmem⟩ := hinv.assignedHeld id t wid ht hcond.2
    have hwnd := hinv.jobsNodup wid w hw
    have hflat := releaseSlot_updT s (finishTask t oc s.now) hw hmem
    have hterm' : isTerminal (finishTask t oc s.now).status = true := by
      cases oc <;> rfl
    have htask : (applyResult s id wid oc).2.tasks id = some (finishTask t oc s.now) := by
      rw [heq, hflat]
      exact updT_same _ _ _
    refine ⟨?_, ?_, ?_⟩
    · apply iff_of_false
      · rintro (hterm | hne)
        · rw [hcond.1] at hterm
          simp [isTerminal] at hterm
        · exact hne hcond.2
      · intro hcc
        rw [heq] at hcc
        cases hcc
    · intro hcc
      rw [heq] at hcc
      cases hcc
    · intro _
      refine ⟨hcond.1, hcond.2, finishTask t oc s.now, w, htask, rfl, hterm', ?_, ?_,
        hw, ?_, ?_, rfl, ?_⟩
      · intro out hoc
        subst hoc
        exact ⟨rfl, rfl⟩
      · intro err hoc
        subst hoc
        exact ⟨rfl, rfl⟩
      · rw [heq, hflat]
        exact getW_setW_same _ _ _
      · intro hmem'
        dsimp only [releasedWorker] at hmem'
        exact ((List.Nodup.mem_erase_iff hwnd).mp hmem').1 rfl
      · intro d env
        exact waitLoop_terminal htask hterm' d env
  · have heq := applyResult_conflict wid oc ht hcond
    refine ⟨?_, ?_, ?_⟩
    · by_cases ha : t.assignedWorker = some wid
      · have hst : t.status = .inProgress :=
          (hinv.assignedIff id t ht).mp (by rw [ha]; rfl)
        exact absurd ⟨hst, ha⟩ hcond
      · exact iff_of_true (Or.inr ha) (by rw [heq])
    · intro _
      rw [heq]
    · intro hok
      rw [heq] at hok
      cases hok

/-- Witness for C6: a late report on the cancelled task of `exOps1` conflicts
and leaves the state unchanged; a valid success report on the held task of
`exOps2s` completes it, releases the slot and satisfies any waiter. -/
theorem reportResult_correct_witness :
    (applyResult exS1 0 "w" (Outcome.failure "late")).1 = ApplyRes.conflict ∧
    (applyResult exS1 0 "w" (Outcome.failure "late")).2 = exS1 ∧
    (exT2.status = .inProgress ∧ exT2.assignedWorker = some "w1" ∧
      ∃ t' w, (applyResult (run exOps2s) 0 "w1" (Outcome.success PyVal.none)).2.tasks 0
          = some t' ∧
        t' = finishTask exT2 (Outcome.success PyVal.none) (run exOps2s).now ∧
        isTerminal t'.status = true ∧
        (∀ out, Outcome.success PyVal.none = Outcome.success out →
          t'.status = .completed ∧ t'.output = some out) ∧
        (∀ err, Outcome.success PyVal.none = Outcome.failure err →
          t'.status = .failed ∧ t'.error = some err) ∧
        getW (run exOps2s).workers "w1" = some w ∧
        getW (applyResult (run exOps2s) 0 "w1" (Outcome.success PyVal.none)).2.workers "w1"
          = some (releasedWorker w 0) ∧
        0 ∉ (releasedWorker w 0).jobsInProgress ∧
        (releasedWorker w 0).currentJobs = w.currentJobs - 1 ∧
        ∀ d env, waitLoop 0 d env
            (applyResult (run exOps2s) 0 "w1" (Outcome.success PyVal.none)).2 =
          ((some t', false),
            (applyResult (run exOps2s) 0 "w1" (Outcome.success PyVal.none)).2)) := by
  have h1 := reportResult_correct exS1 0 "w" (Outcome.failure "late")
    (inv_reachable (reachable_run exOps1)) (show exS1.tasks 0 = some exT1 from rfl)
  have hc : (applyResult exS1 0 "w" (Outcome.failure "late")).1 = ApplyRes.conflict :=
    h1.1.mp (Or.inl rfl)
  have h2 := reportResult_correct (run exOps2s) 0 "w1" (Outcome.success PyVal.none)
    (inv_reachable (reachable_run exOps2s)) (show (run exOps2s).tasks 0 = some exT2 from rfl)
  exact ⟨hc, h1.2.1 hc, h2.2.2 rfl⟩

/-! ## Frame lemmas for the eviction sweep. -/

theorem requeueTask_tasks_other (s : DState) (mr : Nat) {j id : TaskId} (h : id ≠ j) :
    (requeueTask s mr j).tasks id = s.tasks id := by
  unfold requeueTask
  cases s.tasks j with
  | none => rfl
  | some u =>
    by_cases hs : u.status = .inProgress
    · by_cases hr : u.retries < mr
      · simp only [hs, hr, if_true]
        exact updT_other _ _ h
      · simp only [hs, hr, if_true, if_false]
        exact updT_other _ _ h
    · simp only [hs, if_false]

theorem requeueAll_tasks_notin (mr : Nat) : ∀ (L : List TaskId) (s : DState)
    {id : TaskId}, id ∉ L → (requeueAll s mr L).tasks id = s.tasks id := by
  intro L
  induction L with
  | nil => intro s id _; rfl
  | cons j rest ih =>
    intro s id hid
    rw [requeueAll, ih _ (fun hc => hid (List.mem_cons_of_mem j hc)),
      requeueTask_tasks_other s mr
        (fun hc => hid (by rw [hc]; exact List.mem_cons_self j rest))]

theorem requeueTask_queue_ext (s : DState) (mr : Nat) (j : TaskId) (e : Endpoint) :
    ∃ new, (requeueTask s mr j).queue e = new ++ s.queue e := by
  unfold requeueTask
  cases s.tasks j with
  | none => exact ⟨[], rfl⟩
  | some u =>
    by_cases hs : u.status = .inProgress
    · by_cases hr : u.retries < mr
      · simp only [hs, hr, if_true]
        by_cases he : e = u.endpoint
        · refine ⟨[j], ?_⟩
          dsimp only
          rw [he, setQ_same]
          rfl
        · refine ⟨[], ?_⟩
          dsimp only
          rw [setQ_other _ _ he]
          rfl
      · simp only [hs, hr, if_true, if_false]
        exact ⟨[], rfl⟩
    · simp only [hs, if_false]
      exact ⟨[], rfl⟩

theorem requeueAll_queue_ext (mr : Nat) : ∀ (L : List TaskId) (s : DState)
    (e : Endpoint), ∃ new, (requeueAll s mr L).queue e = new ++ s.queue e := by
  intro L
  induction L with
  | nil => intro s e; exact ⟨[], rfl⟩
  | cons j rest ih =>
    intro s e
    obtain ⟨n1, h1⟩ := requeueTask_queue_ext s mr j e
    obtain ⟨n2, h2⟩ := ih (requeueTask s mr j) e
    exact ⟨n2 ++ n1, by rw [requeueAll, h2, h1, List.append_assoc]⟩

theorem evictWorker_queue_ext (s : DState) (mr : Nat) (wid : WorkerId)
    (e : Endpoint) : ∃ new, (evictWorker s mr wid).queue e = new ++ s.queue e := by
  unfold evictWorker
  cases getW s.workers wid with
  | none => exact ⟨[], rfl⟩
  | some w => exact requeueAll_queue_ext mr _ _ e

theorem foldl_evict_queue_ext (mr : Nat) : ∀ (L : List WorkerId) (s : DState)
    (e : Endpoint),
    ∃ new, ((L.foldl (fun a wid => evictWorker a mr wid) s)).queue e = new ++ s.queue e := by
  intro L
  induction L with
  | nil => intro s e; exact ⟨[], rfl⟩
  | cons wid rest ih =>
    intro s e
    obtain ⟨n1, h1⟩ := evictWorker_queue_ext s mr wid e
    obtain ⟨n2, h2⟩ := ih (evictWorker s mr wid) e
    exact ⟨n2 ++ n1, by rw [List.foldl_cons, h2, h1, List.append_assoc]⟩

theorem getW_mem : ∀ {l : List (WorkerId × Worker)} {wid : WorkerId} {w : Worker},
    getW l wid = some w → (wid, w) ∈ l := by
  intro l
  induction l with
  | nil => intro wid w h; cases h
  | cons p r ih =>
    intro wid w h
    obtain ⟨k, x⟩ := p
    by_cases hk : k = wid
    · rw [show getW ((k, x) :: r) wid = if k = wid then some x else getW r wid from rfl,
        if_pos hk] at h
      cases h
      rw [hk]
      exact List.mem_cons_self _ _
    · rw [show getW ((k, x) :: r) wid = if k = wid then some x else getW r wid from rfl,
        if_neg hk] at h
      exact List.mem_cons_of_mem _ (ih h)

theorem mem_split_first {α : Type} [DecidableEq α] :
    ∀ {l : List α} {a : α}, a ∈ l → ∃ p q, l = p ++ a :: q ∧ a ∉ p := by
  intro l
  induction l with
  | nil => intro a h; cases h
  | cons b r ih =>
    intro a h
    by_cases hab : a = b
    · exact ⟨[], r, by rw [hab]; rfl, by simp⟩
    · have hr : a ∈ r := by
        rcases List.mem_cons.mp h with hc | hc
        · cases hab hc
        · exact hc
      obtain ⟨p, q, hl, hnp⟩ := ih hr
      refine ⟨b :: p, q, by rw [hl]; rfl, ?_⟩
      intro hc
      rcases List.mem_cons.mp hc with hc | hc
      · exact hab hc
      · exact hnp hc

theorem getW_removeW_none {l : List (WorkerId × Worker)} {wid : WorkerId}
    (wid' : WorkerId) (h : getW l wid = Option.none) :
    getW (removeW l wid') wid = Option.none := by
  by_cases hww : wid = wid'
  · rw [hww, getW_removeW_same]
  · rw [getW_removeW_other _ hww]
    exact h

theorem evictWorker_getW_none {s : DState} {wid : WorkerId} (mr : Nat)
    (wid' : WorkerId) (h : getW s.workers wid = Option.none) :
    getW (evictWorker s mr wid').workers wid = Option.none := by
  unfold evictWorker
  cases getW s.workers wid' with
  | none => exact h
  | some w =>
    rw [requeueAll_workers]
    exact getW_removeW_none wid' h

theorem foldl_evict_getW_none (mr : Nat) : ∀ (L : List WorkerId) (s : DState)
    {wid : WorkerId}, getW s.workers wid = Option.none →
    getW ((L.foldl (fun a w => evictWorker a mr w) s)).workers wid = Option.none := by
  intro L
  induction L with
  | nil => intro s wid h; exact h
  | cons wid' rest ih =>
    intro s wid h
    exact ih _ (evictWorker_getW_none mr wid' h)

theorem evictWorker_getW_other {s : DState} {wid wid' : WorkerId} (mr : Nat)
    (h : wid ≠ wid') : getW (evictWorker s mr wid').workers wid = getW s.workers wid := by
  unfold evictWorker
  cases getW s.workers wid' with
  | none => rfl
  | some w =>
    rw [requeueAll_workers]
    exact getW_removeW_other _ h

theorem foldl_evict_getW_notin (mr : Nat) : ∀ (L : List WorkerId) (s : DState)
    {wid : WorkerId}, wid ∉ L →
    getW ((L.foldl (fun a w => evictWorker a mr w) s)).workers wid = getW s.workers wid := by
  intro L
  induction L with
  | nil => intro s wid _; rfl
  | cons wid' rest ih =>
    intro s wid h
    rw [List.foldl_cons, ih _ (fun hc => h (List.mem_cons_of_mem _ hc)),
      evictWorker_getW_other mr
        (fun hc => h (by rw [hc]; exact List.mem_cons_self _ _))]

theorem foldl_evict_now (mr : Nat) : ∀ (L : List WorkerId) (s : DState),
    ((L.foldl (fun a wid => evictWorker a mr wid) s)).now = s.now := by
  intro L
  induction L with
  | nil => intro s; rfl
  | cons wid rest ih => intro s; rw [List.foldl_cons, ih, evictWorker_now]

/-- A record that is not `IN_PROGRESS` survives any sequence of evictions
unchanged. -/
theorem foldl_evict_nonIP (mr : Nat) (L : List WorkerId) (s : DState) (id : TaskId)
    {t : Task} (ht : s.tasks id = some t) (hst : t.status ≠ .inProgress) :
    ((L.foldl (fun a wid => evictWorker a mr wid) s)).tasks id = some t := by
  obtain ⟨t', ht', he⟩ := foldl_evict_evolve mr L s id ht
  rcases he with rfl | ⟨hs, _⟩
  · exact ht'
  · cases hst hs

/-- The outcome of `requeueAll` on each listed task: requeued to the front of
its endpoint's queue with the retry counter bumped, or failed once the retry
bound is reached. -/
theorem requeueAll_spec (mr : Nat) : ∀ (L : List TaskId) (a : DState), L.Nodup →
    (∀ id ∈ L, ∃ t, a.tasks id = some t ∧ t.status = .inProgress) →
    ∀ id ∈ L, ∃ t, a.tasks id = some t ∧ t.status = .inProgress ∧
      ((t.retries < mr ∧ (requeueAll a mr L).tasks id = some (requeuedTask t) ∧
        id ∈ (requeueAll a mr L).queue t.endpoint) ∨
       (¬ t.retries < mr ∧ (requeueAll a mr L).tasks id = some (failedTask t a.now))) := by
  intro L
  induction L with
  | nil =>
    intro a _ _ id hid
    cases hid
  | cons j rest ih =>
    intro a hnd hpre id hid
    have hnd' := List.nodup_cons.mp hnd
    rcases List.mem_cons.mp hid with hc | hidr
    · subst hc
      obtain ⟨t, ht, hst⟩ := hpre id (List.mem_cons_self id rest)
      refine ⟨t, ht, hst, ?_⟩
      by_cases hr : t.retries < mr
      · have heq := requeueTask_requeue ht hst hr
        refine Or.inl ⟨hr, ?_, ?_⟩
        · rw [requeueAll, requeueAll_tasks_notin mr rest _ hnd'.1, heq]
          exact updT_same _ _ _
        · rw [requeueAll]
          obtain ⟨new, hnew⟩ := requeueAll_queue_ext mr rest (requeueTask a mr id) t.endpoint
          rw [hnew, heq]
          refine List.mem_append.mpr (Or.inr ?_)
          dsimp only
          rw [setQ_same]
          exact List.mem_cons_self _ _
      · have heq := requeueTask_fail ht hst hr
        refine Or.inr ⟨hr, ?_⟩
        rw [requeueAll, requeueAll_tasks_notin mr rest _ hnd'.1, heq]
        exact updT_same _ _ _
    · have hne : id ≠ j := fun hc => hnd'.1 (hc ▸ hidr)
      have hpre' : ∀ x ∈ rest, ∃ t, (requeueTask a mr j).tasks x = some t ∧
          t.status = .inProgress := by
        intro x hx
        have hxe : x ≠ j := fun hc => hnd'.1 (hc ▸ hx)
        obtain ⟨t, ht, hst⟩ := hpre x (List.mem_cons_of_mem j hx)
        exact ⟨t, (requeueTask_tasks_other a mr hxe).trans ht, hst⟩
      obtain ⟨t, ht, hst, hout⟩ := ih (requeueTask a mr j) hnd'.2 hpre' id hidr
      rw [requeueTask_tasks_other a mr hne] at ht
      rw [requeueTask_now] at hout
      exact ⟨t, ht, hst, hout⟩

/-- Unfolding equation for `evictWorker` on a registered worker. -/
theorem evictWorker_eq {s : DState} {wid : WorkerId} {w : Worker} (mr : Nat)
    (hw : getW s.workers wid = some w) :
    evictWorker s mr wid =
      requeueAll { s with workers := removeW s.workers wid } mr w.jobsInProgress := by
  unfold evictWorker
  rw [hw]

/-- The per-worker eviction outcome relative to the state it runs in. -/
theorem evict_mid (a : DState) (mr : Nat) (wid : WorkerId) {w : Worker}
    (hInva : Inv a) (hgwa : getW a.workers wid = some w) :
    ∀ id ∈ w.jobsInProgress, ∃ t, a.tasks id = some t ∧ t.status = .inProgress ∧
      ((t.retries < mr ∧ (evictWorker a mr wid).tasks id = some (requeuedTask t) ∧
        id ∈ (evictWorker a mr wid).queue t.endpoint) ∨
       (¬ t.retries < mr ∧ (evictWorker a mr wid).tasks id = some (failedTask t a.now))) := by
  intro id hid
  have hspec := requeueAll_spec mr w.jobsInProgress
    ({ a with workers := removeW a.workers wid }) (hInva.jobsNodup wid w hgwa)
    (by
      intro x hx
      obtain ⟨t, ht, hst, _⟩ := hInva.heldInProgress wid w hgwa x hx
      exact ⟨t, ht, hst⟩) id hid
  obtain ⟨t, ht, hst, hout⟩ := hspec
  refine ⟨t, ht, hst, ?_⟩
  rw [evictWorker_eq mr hgwa]
  exact hout

/-- An example trace: worker `w1` holds task 0, then 100 time units pass. -/
def exOps7 : List Op := exOps2s ++ [Op.tick 100]

/-- C7: when the eviction sweep removes a worker whose heartbeat is stale,
every task that worker held either returns to `PENDING` with
`assigned_worker` cleared and its retry counter incremented, its id placed in
its endpoint's queue ahead of every entry that was queued before the sweep,
or — once the retry counter has reached the maximum — transitions to `FAILED`
with the synthetic "worker unavailable" error; no held task is lost, and the
worker is gone from the registry. -/
theorem eviction_requeues_held (s : DState) (timeout mr : Nat) (wid : WorkerId)
    {w : Worker} (hinv : Inv s) (hw : getW s.workers wid = some w)
    (hstale : staleP s.now timeout w = true) :
    (∀ id ∈ w.jobsInProgress, ∃ t t',
      s.tasks id = some t ∧ t.status = .inProgress ∧
      (evictStale s timeout mr).tasks id = some t' ∧
      ((t.retries < mr ∧ t' = requeuedTask t ∧ t'.status = .pending ∧
        t'.assignedWorker = Option.none ∧ t'.retries = t.retries + 1 ∧
        id ∈ (evictStale s timeout mr).queue t.endpoint) ∨
       (¬ t.retries < mr ∧ t' = failedTask t s.now ∧ t'.status = .failed ∧
        t'.error = some "worker unavailable"))) ∧
    (∀ e, ∃ new, (evictStale s timeout mr).queue e = new ++ s.queue e) ∧
    getW (evictStale s timeout mr).workers wid = Option.none := by
  have hmemSta : wid ∈ staleIds s timeout := by
    unfold staleIds
    refine List.mem_map.mpr ⟨(wid, w), ?_, rfl⟩
    exact List.mem_filter.mpr ⟨getW_mem hw, hstale⟩
  obtain ⟨preL, postL, hsplitL, hpreL⟩ := mem_split_first hmemSta
  have hfold : evictStale s timeout mr =
      postL.foldl (fun acc x => evictWorker acc mr x)
        (evictWorker (preL.foldl (fun acc x => evictWorker acc mr x) s) mr wid) := by
    unfold evictStale
    rw [hsplitL, List.foldl_append, List.foldl_cons]
  have hInva : Inv (preL.foldl (fun acc x => evictWorker acc mr x) s) :=
    foldl_evict_inv mr preL s hinv
  have hgwa : getW ((preL.foldl (fun acc x => evictWorker acc mr x) s)).workers wid
      = some w := by
    rw [foldl_evict_getW_notin mr preL s hpreL]
    exact hw
  have hnowa : ((preL.foldl (fun acc x => evictWorker acc mr x) s)).now = s.now :=
    foldl_evict_now mr preL s
  refine ⟨?_, ?_, ?_⟩
  · intro id hid
    obtain ⟨t, ht, hst, _⟩ := hinv.heldInProgress wid w hw id hid
    obtain ⟨t2, ht2, hst2, hout⟩ := evict_mid _ mr wid hInva hgwa id hid
    have ht2t : t2 = t := by
      obtain ⟨t1, ht1, he1⟩ := foldl_evict_evolve mr preL s id ht
      rw [ht1] at ht2
      cases ht2
      rcases he1 with rfl | ⟨_, hcase⟩
      · rfl
      · rcases hcase with rfl | rfl
        · rw [show (requeuedTask t).status = Status.pending from rfl] at hst2
          cases hst2
        · rw [show (failedTask t s.now).status = Status.failed from rfl] at hst2
          cases hst2
    subst ht2t
    rcases hout with ⟨hr, hbt, hbq⟩ | ⟨hr, hbt⟩
    · refine ⟨t2, requeuedTask t2, ht, hst, ?_, Or.inl ⟨hr, rfl, rfl, rfl, rfl, ?_⟩⟩
      · rw [hfold]
        exact foldl_evict_nonIP mr postL _ id hbt (by
          intro hc
          rw [show (requeuedTask t2).status = Status.pending from rfl] at hc
          cases hc)
      · rw [hfold]
        obtain ⟨new, hnew⟩ := foldl_evict_queue_ext mr postL
          (evictWorker (preL.foldl (fun acc x => evictWorker acc mr x) s) mr wid)
          t2.endpoint
        rw [hnew]
        exact List.mem_append.mpr (Or.inr hbq)
    · rw [hnowa] at hbt
      refine ⟨t2, failedTask t2 s.now, ht, hst, ?_, Or.inr ⟨hr, rfl, rfl, rfl⟩⟩
      rw [hfold]
      exact foldl_evict_nonIP mr postL _ id hbt (by
        intro hc
        rw [show (failedTask t2 s.now).status = Status.failed from rfl] at hc
        cases hc)
  · intro e
    unfold evictStale
    exact foldl_evict_queue_ext mr (staleIds s timeout) s e
  · rw [hfold]
    refine foldl_evict_getW_none mr postL _ ?_
    rw [evictWorker_eq mr hgwa, requeueAll_workers]
    exact getW_removeW_same _ _

/-- Witness for C7: evicting the stale worker of `exOps7` (heartbeat at time
0, clock at 100, timeout 10, retry bound 3) requeues its held task 0 and
removes the worker. -/
theorem eviction_requeues_held_witness :
    (∃ t t', (run exOps7).tasks 0 = some t ∧ t.status = .inProgress ∧
      (evictStale (run exOps7) 10 3).tasks 0 = some t' ∧
      ((t.retries < 3 ∧ t' = requeuedTask t ∧ t'.status = .pending ∧
        t'.assignedWorker = Option.none ∧ t'.retries = t.retries + 1 ∧
        0 ∈ (evictStale (run exOps7) 10 3).queue t.endpoint) ∨
       (¬ t.retries < 3 ∧ t' = failedTask t (run exOps7).now ∧ t'.status = .failed ∧
        t'.error = some "worker unavailable"))) ∧
    getW (evictStale (run exOps7) 10 3).workers "w1" = Option.none := by
  have h := eviction_requeues_held (run exOps7) 10 3 "w1"
    (inv_reachable (reachable_run exOps7))
    (show getW (run exOps7).workers "w1" = some exW1 from rfl) (by decide)
  exact ⟨h.1 0 (by decide), h.2.2⟩

/-- The time an operation adds to the clock. -/
def tickOf : Op → Nat
  | .tick d => d
  | _ => 0

theorem releaseSlot_now (s : DState) (wid : WorkerId) (id : TaskId) :
    (releaseSlot s wid id).now = s.now := by
  unfold releaseSlot
  cases getW s.workers wid with
  | none => rfl
  | some w =>
    by_cases hm : id ∈ w.jobsInProgress
    · simp [hm]
    · simp [hm]

theorem sumTicks_cons (op : Op) (r : List Op) :
    sumTicks (op :: r) = tickOf op + sumTicks r := by
  cases op <;> simp [sumTicks, tickOf]

theorem step_now (op : Op) (s : DState) : (step op s).now = s.now + tickOf op := by
  cases op with
  | submit e inp => rfl
  | heartbeat wid e conc =>
    show (registerOrHeartbeat s wid e conc).now = _
    unfold registerOrHeartbeat
    cases getW s.workers wid <;> rfl
  | take e wid n =>
    show (takeNext s e wid n).2.now = _
    cases hw : getW s.workers wid with
    | none => rw [takeNext_no_worker n hw]; rfl
    | some w =>
      by_cases hc : w.concurrency ≤ w.currentJobs
      · rw [takeNext_full n hw hc]; rfl
      · cases hscan : scanQueue s (s.queue e) with
        | mk res rest =>
          cases res with
          | none => rw [takeNext_exhausted n hw hc hscan]; rfl
          | some p =>
            obtain ⟨j, u⟩ := p
            rw [takeNext_success n hw hc hscan]; rfl
  | cancelOp j =>
    show (cancel s j).2.now = _
    cases ht : s.tasks j with
    | none => rw [cancel_notFound ht]; rfl
    | some u =>
      cases hstat : u.status with
      | pending => rw [cancel_pending ht hstat]; rfl
      | inProgress =>
        cases ha : u.assignedWorker with
        | none => rw [cancel_inProgress_noWorker ht hstat ha]; rfl
        | some wid =>
          rw [cancel_inProgress ht hstat ha]
          show (releaseSlot _ wid j).now = _
          rw [releaseSlot_now]
          rfl
      | completed => rw [cancel_terminal ht (by rw [hstat]; rfl)]; rfl
      | failed => rw [cancel_terminal ht (by rw [hstat]; rfl)]; rfl
      | cancelled => rw [cancel_terminal ht (by rw [hstat]; rfl)]; rfl
  | report j wid oc =>
    show (applyResult s j wid oc).2.now = _
    cases ht : s.tasks j with
    | none => rw [applyResult_notFound wid oc ht]; rfl
    | some u =>
      by_cases hcond : u.status = .inProgress ∧ u.assignedWorker = some wid
      · rw [applyResult_ok oc ht hcond.1 hcond.2]
        show (releaseSlot _ wid j).now = _
        rw [releaseSlot_now]
        rfl
      · rw [applyResult_conflict wid oc ht hcond]; rfl
  | evict timeout mr =>
    show (evictStale s timeout mr).now = _
    unfold evictStale
    rw [foldl_evict_now]
    rfl
  | tick d => rfl

/-- `waitLoop` returns immediately with the timeout flag when the deadline
has passed on a non-terminal task. -/
theorem waitLoop_timeout {s : DState} {id : TaskId} {t : Task} {d : Nat}
    (ht : s.tasks id = some t) (hterm : isTerminal t.status = false)
    (hd : d ≤ s.now) (env : List Op) :
    waitLoop id d env s = ((some t, true), s) := by
  unfold waitLoop
  rw [ht]
  simp [hterm, hd]

/-- `waitLoop` with an exhausted environment reports a timeout with the
current snapshot. -/
theorem waitLoop_nil {s : DState} {id : TaskId} {t : Task} {d : Nat}
    (ht : s.tasks id = some t) (hterm : isTerminal t.status = false) :
    waitLoop id d [] s = ((some t, true), s) := by
  unfold waitLoop
  rw [ht]
  simp [hterm]

/-- `waitLoop` steps its environment when the task is live and the deadline
has not passed. -/
theorem waitLoop_cont {s : DState} {id : TaskId} {t : Task} {d : Nat}
    (ht : s.tasks id = some t) (hterm : isTerminal t.status = false)
    (hd : ¬ d ≤ s.now) (op : Op) (rest : List Op) :
    waitLoop id d (op :: rest) s = waitLoop id d rest (step op s) := by
  conv_lhs => rw [waitLoop]
  rw [ht]
  simp [hterm, hd]

/-- What the synchronous wait returns: always a snapshot of the task's final
record, flagged terminal (no timeout) or non-terminal with the deadline
passed (timeout), provided the environment carries enough time. -/
theorem waitLoop_spec (id : TaskId) (deadline : Nat) : ∀ (env : List Op) (s : DState),
    Inv s → ∀ t0, s.tasks id = some t0 → deadline ≤ s.now + sumTicks env →
    ∃ t b s', waitLoop id deadline env s = ((some t, b), s') ∧ s'.tasks id = some t ∧
      (b = false ∧ isTerminal t.status = true ∨
       b = true ∧ isTerminal t.status = false ∧ deadline ≤ s'.now) := by
  intro env
  induction env with
  | nil =>
    intro s hInv t0 ht0 hd
    by_cases hterm : isTerminal t0.status = true
    · exact ⟨t0, false, s, waitLoop_terminal ht0 hterm deadline [], ht0,
        Or.inl ⟨rfl, hterm⟩⟩
    · have hterm' : isTerminal t0.status = false := by
        revert hterm
        cases isTerminal t0.status <;> simp
      have hdl : deadline ≤ s.now := by simpa [sumTicks] using hd
      exact ⟨t0, true, s, waitLoop_nil ht0 hterm', ht0, Or.inr ⟨rfl, hterm', hdl⟩⟩
  | cons op rest ih =>
    intro s hInv t0 ht0 hd
    by_cases hterm : isTerminal t0.status = true
    · exact ⟨t0, false, s, waitLoop_terminal ht0 hterm deadline _, ht0,
        Or.inl ⟨rfl, hterm⟩⟩
    · have hterm' : isTerminal t0.status = false := by
        revert hterm
        cases isTerminal t0.status <;> simp
      by_cases hdl : deadline ≤ s.now
      · exact ⟨t0, true, s, waitLoop_timeout ht0 hterm' hdl _, ht0,
          Or.inr ⟨rfl, hterm', hdl⟩⟩
      · obtain ⟨t1, ht1, _, _⟩ := step_task_evolution hInv op id ht0
        have hd' : deadline ≤ (step op s).now + sumTicks rest := by
          rw [step_now, sumTicks_cons] at *
          omega
        obtain ⟨t, b, s', heq, htask, hout⟩ := ih (step op s) (inv_step hInv op) t1 ht1 hd'
        exact ⟨t, b, s', (waitLoop_cont ht0 hterm' hdl op rest).trans heq, htask, hout⟩

/-- A non-terminal status is `PENDING` or `IN_PROGRESS`. -/
theorem not_terminal_cases {st : Status} (h : isTerminal st = false) :
    st = .pending ∨ st = .inProgress := by
  cases st <;> simp [isTerminal] at h ⊢

/-- C8: `runSync` always returns a response.  It creates and enqueues the
task, then blocks: if the task reaches a terminal state within the timeout
the returned snapshot is terminal and no timeout is flagged; if the deadline
passes first (the environment providing at least `timeout` time units) the
caller gets the task's current snapshot with the status still `PENDING` or
`IN_PROGRESS` and an explicit timeout flag, and the snapshot equals the
task's record in the final state — the timeout itself does not change the
task's state. -/
theorem runSync_responds (s : DState) (e : Endpoint) (inp : PyVal) (timeout : Nat)
    (env : List Op) (hinv : Inv s) (henv : timeout ≤ sumTicks env) :
    ∃ id t b s', runSync s e inp timeout env = ((id, some t, b), s') ∧
      s'.tasks id = some t ∧
      (b = false ∧ isTerminal t.status = true ∨
       b = true ∧ isTerminal t.status = false ∧
         (t.status = .pending ∨ t.status = .inProgress) ∧
         (submit s e inp).2.now + timeout ≤ s'.now) := by
  have hrec : (submit s e inp).2.tasks (submit s e inp).1 = some (newTask s e inp) := by
    rw [submit_eq]
    exact updT_same _ _ _
  have hdd : (submit s e inp).2.now + timeout ≤ (submit s e inp).2.now + sumTicks env :=
    Nat.add_le_add_left henv _
  obtain ⟨t, b, s', heq, htask, hout⟩ := waitLoop_spec (submit s e inp).1
    ((submit s e inp).2.now + timeout) env (submit s e inp).2
    (submit_inv hinv e inp) (newTask s e inp) hrec hdd
  have h0 : runSync s e inp timeout env =
      (((submit s e inp).1,
        (waitLoop (submit s e inp).1 ((submit s e inp).2.now + timeout) env
          (submit s e inp).2).1.1,
        (waitLoop (submit s e inp).1 ((submit s e inp).2.now + timeout) env
          (submit s e inp).2).1.2),
       (waitLoop (submit s e inp).1 ((submit s e inp).2.now + timeout) env
          (submit s e inp).2).2) := rfl
  rw [heq] at h0
  refine ⟨(submit s e inp).1, t, b, s', h0, htask, ?_⟩
  rcases hout with ⟨hb, hterm⟩ | ⟨hb, hterm, hdl⟩
  · exact Or.inl ⟨hb, hterm⟩
  · exact Or.inr ⟨hb, hterm, not_terminal_cases hterm, hdl⟩

/-- Witness for C8: with no worker and a 2-unit budget against a 5-unit
environment, `runSync` returns a timeout with the task still `PENDING`; with
a worker that takes and reports within the budget it returns the terminal
snapshot. -/
theorem runSync_responds_witness :
    (∃ id t b s', runSync init "e" PyVal.none 2 [Op.tick 5] = ((id, some t, b), s') ∧
      s'.tasks id = some t ∧
      (b = false ∧ isTerminal t.status = true ∨
       b = true ∧ isTerminal t.status = false ∧
         (t.status = .pending ∨ t.status = .inProgress) ∧
         (submit init "e" PyVal.none).2.now + 2 ≤ s'.now)) ∧
    (∃ id t b s', runSync (run [Op.heartbeat "w1" "e" 1]) "e" PyVal.none 2
        [Op.take "e" "w1" 1, Op.report 0 "w1" (Outcome.success PyVal.none), Op.tick 3]
        = ((id, some t, b), s') ∧
      s'.tasks id = some t ∧
      (b = false ∧ isTerminal t.status = true ∨
       b = true ∧ isTerminal t.status = false ∧
         (t.status = .pending ∨ t.status = .inProgress) ∧
         (submit (run [Op.heartbeat "w1" "e" 1]) "e" PyVal.none).2.now + 2 ≤ s'.now)) := by
  constructor
  · exact runSync_responds init "e" PyVal.none 2 [Op.tick 5] Inv.init_inv (by decide)
  · exact runSync_responds (run [Op.heartbeat "w1" "e" 1]) "e" PyVal.none 2
      [Op.take "e" "w1" 1, Op.report 0 "w1" (Outcome.success PyVal.none), Op.tick 3]
      (inv_reachable (reachable_run [Op.heartbeat "w1" "e" 1])) (by decide)

/-- C9: per-endpoint dispatch order — `enqueue` (and hence `submit`) appends
to the back of the endpoint's queue, so never-assigned tasks sit in
submission order; a task requeued after eviction is placed at the front of
its endpoint's queue, ahead of every task currently queued; and `takeNext`
claims the earliest still-`PENDING` entry of the queue, so front position
means assigned first. -/
theorem queue_fifo_order :
    (∀ s e id, (enqueue s e id).queue e = s.queue e ++ [id] ∧
      ∀ x, x ≠ e → (enqueue s e id).queue x = s.queue x) ∧
    (∀ s e inp, (submit s e inp).2.queue e = s.queue e ++ [s.nextId]) ∧
    (∀ s mr id t, s.tasks id = some t → t.status = .inProgress → t.retries < mr →
      (requeueTask s mr id).queue t.endpoint = id :: s.queue t.endpoint) ∧
    (∀ s e wid n id t', (takeNext s e wid n).1 = some (id, t') →
      ∃ pre rest, s.queue e = pre ++ id :: rest ∧ (∀ j ∈ pre, ¬ IsPending s j) ∧
        IsPending s id) := by
  refine ⟨?_, ?_, ?_, ?_⟩
  · intro s e id
    refine ⟨setQ_same _ _ _, ?_⟩
    intro x hx
    exact setQ_other _ _ hx
  · intro s e inp
    rw [submit_eq]
    exact setQ_same _ _ _
  · intro s mr id t ht hst hr
    rw [requeueTask_requeue ht hst hr]
    exact setQ_same _ _ _
  · intro s e wid n id t' hres
    cases hw : getW s.workers wid with
    | none =>
      rw [takeNext_no_worker n hw] at hres
      cases hres
    | some w =>
      by_cases hc : w.concurrency ≤ w.currentJobs
      · rw [takeNext_full n hw hc] at hres
        cases hres
      · cases hscan : scanQueue s (s.queue e) with
        | mk res rest =>
          cases res with
          | none =>
            rw [takeNext_exhausted n hw hc hscan] at hres
            cases hres
          | some p =>
            obtain ⟨j, u⟩ := p
            rw [takeNext_success n hw hc hscan] at hres
            obtain ⟨hji, _⟩ := Prod.mk.injEq _ _ _ _ ▸ (Option.some.inj hres)
            obtain ⟨pre, hsplit, hpre, hu, hus⟩ := scanQueue_some s _ j u rest hscan
            exact ⟨pre, rest, by rw [← hji]; exact hsplit, hpre,
              ⟨u, by rw [← hji]; exact hu, hus⟩⟩

/-- Witness for C9 at concrete states: appends at the empty state, requeue to
the front at `exOps2s`, earliest-pending claim at `exOps2a`. -/
theorem queue_fifo_order_witness :
    ((enqueue init "e" 5).queue "e" = init.queue "e" ++ [5] ∧
      (enqueue init "e" 5).queue "f" = init.queue "f") ∧
    (submit init "e" PyVal.none).2.queue "e" = init.queue "e" ++ [init.nextId] ∧
    (requeueTask (run exOps2s) 3 0).queue exT2.endpoint
      = 0 :: (run exOps2s).queue exT2.endpoint ∧
    (∃ pre rest, (run exOps2a).queue "e" = pre ++ 0 :: rest ∧
      (∀ j ∈ pre, ¬ IsPending (run exOps2a) j) ∧ IsPending (run exOps2a) 0) := by
  obtain ⟨ha, hb⟩ := queue_fifo_order.1 init "e" 5
  refine ⟨⟨ha, hb "f" (by decide)⟩, queue_fifo_order.2.1 init "e" PyVal.none, ?_, ?_⟩
  · exact queue_fifo_order.2.2.1 (run exOps2s) 3 0 exT2 rfl rfl (by decide)
  · exact queue_fifo_order.2.2.2 (run exOps2a) "e" "w1" 1 0 exT2 rfl

/-- C10: `handler_with_error_handling` never propagates an exception — it
returns a dict for every job value; and when the job's input (defaulting to
the empty document when the `input` key is absent) is a document, a truthy
`should_fail` field yields exactly `{"error": "Simulated failure"}` and
otherwise the result is `{"result": "success", "input": <the input doc>}`. -/
theorem handler_no_exception (job : PyVal) :
    (∃ es, handler_with_error_handling job = .dict es) ∧
    ∀ inp, dictGet job "input" (.dict []) = Except.ok (.dict inp) →
      (truthy (getEntry inp "should_fail" .none) = true →
        handler_with_error_handling job = .dict [("error", .str "Simulated failure")]) ∧
      (truthy (getEntry inp "should_fail" .none) = false →
        handler_with_error_handling job =
          .dict [("result", .str "success"), ("input", .dict inp)]) := by
  constructor
  · unfold handler_with_error_handling
    cases hjob : dictGet job "input" (.dict []) with
    | error e => exact ⟨_, rfl⟩
    | ok v =>
      dsimp only
      cases hv : dictGet v "should_fail" .none with
      | error e2 => exact ⟨_, rfl⟩
      | ok sf =>
        dsimp only
        by_cases hsf : truthy sf = true
        · exact ⟨_, by rw [if_pos hsf]⟩
        · exact ⟨_, by rw [if_neg hsf]⟩
  · intro inp hinp
    have hok : dictGet (PyVal.dict inp) "should_fail" .none
        = Except.ok (getEntry inp "should_fail" .none) := rfl
    constructor
    · intro htr
      unfold handler_with_error_handling
      rw [hinp]
      dsimp only
      simp only [hok]
      rw [if_pos htr]
    · intro htr
      unfold handler_with_error_handling
      rw [hinp]
      dsimp only
      simp only [hok]
      rw [if_neg (by rw [htr]; exact Bool.false_ne_true)]

/-- Witness for C10 on concrete jobs: a job with no `input` key, a failing
input, a succeeding input, and the empty job exercising the default. -/
theorem handler_no_exception_witness :
    (∃ es, handler_with_error_handling (.dict [("id", .str "1")]) = .dict es) ∧
    handler_with_error_handling
        (.dict [("input", .dict [("should_fail", .bool true)])]) =
      .dict [("error", .str "Simulated failure")] ∧
    handler_with_error_handling (.dict [("input", .dict [("x", .int 3)])]) =
      .dict [("result", .str "success"), ("input", .dict [("x", .int 3)])] ∧
    handler_with_error_handling (.dict []) =
      .dict [("result", .str "success"), ("input", .dict [])] := by
  refine ⟨(handler_no_exception (.dict [("id", .str "1")])).1, ?_, ?_, ?_⟩
  · exact ((handler_no_exception
      (.dict [("input", .dict [("should_fail", .bool true)])])).2
      [("should_fail", .bool true)] rfl).1 rfl
  · exact ((handler_no_exception (.dict [("input", .dict [("x", .int 3)])])).2
      [("x", .int 3)] rfl).2 rfl
  · exact ((handler_no_exception (.dict [])).2 [] rfl).2 rfl

end Waverless
